import Mathlib

/-
Verification of `organize-files-by-month.py`.

The script is a single pass over the current working directory:

    def create_directory_if_not_exists(directory):
        if not os.path.exists(directory):
            os.makedirs(directory)

    def organize_files_by_date():
        for filename in os.listdir('.'):
            if os.path.isfile(filename):
                mod_time = os.path.getmtime(filename)
                year_month = datetime.fromtimestamp(mod_time).strftime('%Y.%m')
                create_directory_if_not_exists(year_month)
                shutil.move(filename, os.path.join(year_month, filename))
                print(f'Moved {filename} to {year_month}/')

The shallow embedding below models the working directory as an association
list from names to entries, the POSIX primitives used by the script
(`os.path.exists`, `os.path.isfile`, `os.path.getmtime`, `os.makedirs`,
`shutil.move` restricted to the single call shape the script uses), and
`datetime.fromtimestamp(t).strftime('%Y.%m')` via the standard civil-calendar
conversion, with the local timezone modelled as a fixed offset in seconds.
Modification times are whole seconds (the fractional part of a POSIX mtime
never affects the year/month of the local civil date except by under a
second at a boundary, which the model does not represent).
-/

namespace OrganizeFiles

/-! ### Association lists with string keys

A real directory maps each name to at most one entry; the model uses
association lists together with a no-duplicate-keys well-formedness
predicate. -/

def lookupName {α : Type} : List (String × α) → String → Option α
  | [], _ => none
  | (m, v) :: rest, n => if m = n then some v else lookupName rest n

def eraseName {α : Type} : List (String × α) → String → List (String × α)
  | [], _ => []
  | (m, v) :: rest, n => if m = n then rest else (m, v) :: eraseName rest n

def updateName {α : Type} : List (String × α) → String → α → List (String × α)
  | [], _, _ => []
  | (m, v) :: rest, n, w => if m = n then (m, w) :: rest else (m, v) :: updateName rest n w

/-- Overwrite-or-append: the effect of `os.rename` on the destination
directory's listing (an existing entry of that name is replaced, otherwise
the entry is added). -/
def setName {α : Type} (l : List (String × α)) (n : String) (w : α) : List (String × α) :=
  match lookupName l n with
  | some _ => updateName l n w
  | none => l ++ [(n, w)]

def keysOf {α : Type} (l : List (String × α)) : List String := l.map Prod.fst

/-! ### Civil calendar and `strftime('%Y.%m')`

`civilFromDays` is the standard conversion from days-since-Unix-epoch to a
civil (proleptic Gregorian) year and month, as used by every C and Python
time library. -/

def civilFromDays (z : Int) : Int × Nat :=
  let zd : Int := z + 719468
  let era : Int := Int.ediv zd 146097
  let doe : Nat := (Int.emod zd 146097).toNat
  let yoe : Nat := (doe - doe / 1460 + doe / 36524 - doe / 146096) / 365
  let doy : Nat := doe - (365 * yoe + yoe / 4 - yoe / 100)
  let mp : Nat := (5 * doy + 2) / 153
  let m : Nat := if mp < 10 then mp + 3 else mp - 9
  (if m ≤ 2 then (yoe : Int) + era * 400 + 1 else (yoe : Int) + era * 400, m)

/-- Civil year and month of a POSIX timestamp given in seconds. -/
def civilFromSeconds (secs : Int) : Int × Nat :=
  civilFromDays (Int.ediv secs 86400)

/-- One decimal digit, `'0'`–`'9'`. -/
def decDigit (n : Nat) : String := String.singleton (Char.ofNat (48 + n % 10))

/-- Two-digit zero-padded rendering (the `%m` field; months are `1`–`12`). -/
def render2 (n : Nat) : String := decDigit (n / 10) ++ decDigit n

/-- Four-digit zero-padded rendering used by `%Y` for years below 10000. -/
def render4 (n : Nat) : String :=
  decDigit (n / 1000) ++ decDigit (n / 100) ++ decDigit (n / 10) ++ decDigit n

/-- Rendering of the `%Y` field: zero-padded to four digits; years outside
`[0, 9999]` (unreachable for any realistic mtime) fall back to the plain
decimal rendering. -/
def renderYear (y : Int) : String :=
  if 0 ≤ y ∧ y < 10000 then render4 y.toNat else toString y

/-- Model of `datetime.fromtimestamp(t).strftime('%Y.%m')`: `tz` is the fixed
UTC offset of the local timezone in seconds. -/
def monthLabel (tz : Int) (t : Int) : String :=
  renderYear (civilFromSeconds (t + tz)).1 ++ "." ++ render2 (civilFromSeconds (t + tz)).2

/-! ### The file-system model -/

/-- Metadata of a regular file: its modification time (POSIX seconds) and an
abstract identifier standing for its byte contents. -/
structure FileRec where
  mtime : Int
  content : Nat
  deriving DecidableEq, Repr

/-- A non-directory entry. A symlink to a regular file carries the target's
metadata (`os.path.isfile` and `os.path.getmtime` follow symlinks, and
`os.rename` relocates the link itself). -/
inductive Node where
  | file (f : FileRec)
  | symlinkFile (f : FileRec)
  | symlinkDir
  | symlinkBroken
  | special
  deriving DecidableEq, Repr

/-- An entry of a directory listing: a non-directory node, or a directory
whose contents are again an association list of entries. Directories may
occur at any depth, so a pre-existing month directory containing a
sub-directory — the occupant that triggers the move-inside branch of
`shutil.move` — is representable. (Lean cannot derive decidable equality
for this nested inductive; concrete equalities are discharged by `rfl`.) -/
inductive Entry where
  | node (nd : Node)
  | dir (files : List (String × Entry))

/-- The working directory (the implicit `'.'` of the script). -/
structure WorkDir where
  entries : List (String × Entry)

/-- Modification time visible through `os.path.getmtime` after following
symlinks; `none` for entries `os.path.isfile` rejects. -/
def nodeMtime : Node → Option Int
  | .file f => some f.mtime
  | .symlinkFile f => some f.mtime
  | _ => none

inductive FsError where
  | statFailed (name : String)
  | fileExistsErr (name : String)
  | notADirectory (name : String)
  | fileNotFound (name : String)
  | isADirectory (name : String)
  | destinationExists (name : String)
  deriving DecidableEq, Repr

/-- Model of `os.listdir('.')`: the names in the directory, in listing
order. -/
def os_listdir (d : WorkDir) : List String := keysOf d.entries

/-- Model of `os.path.exists` (follows symlinks, so a broken symlink reports
`False`). -/
def os_path_exists (d : WorkDir) (name : String) : Bool :=
  match lookupName d.entries name with
  | some (.node .symlinkBroken) => false
  | some _ => true
  | none => false

/-- Model of `os.path.isfile` (follows symlinks: true exactly for regular
files and symlinks resolving to regular files). -/
def os_path_isfile (d : WorkDir) (name : String) : Bool :=
  match lookupName d.entries name with
  | some (.node nd) => (nodeMtime nd).isSome
  | _ => false

/-- Model of `os.path.getmtime`. Directory mtimes are not tracked by the
model (the script only stats names that passed `os.path.isfile`, so the
directory branch is unreachable in `organize_files_by_date`). -/
def os_path_getmtime (d : WorkDir) (name : String) : Except FsError Int :=
  match lookupName d.entries name with
  | some (.node nd) =>
    match nodeMtime nd with
    | some t => .ok t
    | none => .error (.statFailed name)
  | _ => .error (.statFailed name)

/-- Model of `os.makedirs` for the single-component names the script passes:
raises `FileExistsError` if any entry of that name is present (even a broken
symlink), otherwise creates an empty directory. -/
def os_makedirs (d : WorkDir) (name : String) : Except FsError WorkDir :=
  match lookupName d.entries name with
  | some _ => .error (.fileExistsErr name)
  | none => .ok ⟨d.entries ++ [(name, .dir [])]⟩

/-- Direct translation of `create_directory_if_not_exists`. -/
def create_directory_if_not_exists (d : WorkDir) (directory : String) : Except FsError WorkDir :=
  if ¬ os_path_exists d directory then
    os_makedirs d directory
  else
    .ok d

/-- Model of `shutil.move(src, os.path.join(dst_dir, src))` in the call shape
the script uses. `shutil.move` first tests `os.path.isdir(dst)` on the full
destination path `dst_dir/src` (following symlinks):

* if that path is a plain directory, the real destination becomes
  `dst_dir/src/src`; if that inner path exists (`os.path.exists`, so a
  broken symlink counts as absent) `shutil.Error` is raised, otherwise
  `os.rename` moves the entry inside the occupant directory (the
  `_samefile(src, dst)` shortcut cannot fire here: the source resolved to a
  regular file and the destination to a directory);
* if that path is a symlink to a directory, the rename happens inside the
  link's target, which lies outside the modelled name space: the entry
  leaves the modelled tree and the link itself stays; the existence test
  inside the unmodelled target is taken to pass;
* otherwise `os.rename` runs directly, silently replacing any non-directory
  occupant (a plain file, a symlink — moved links travel as links — a
  broken symlink, or a special file).

Moving onto a destination whose parent is not a directory raises
`NotADirectoryError`; a missing source or destination parent raises
`FileNotFoundError`. Moving a top-level directory cannot arise in the
script (the source always passed `os.path.isfile`) and is modelled as an
error. -/
def shutil_move (d : WorkDir) (src dst_dir : String) : Except FsError WorkDir :=
  match lookupName d.entries src with
  | some (.node nd) =>
    match lookupName d.entries dst_dir with
    | some (.dir files) =>
      match lookupName files src with
      | some (.dir inner) =>
        match lookupName inner src with
        | none =>
          .ok ⟨updateName (eraseName d.entries src) dst_dir
            (.dir (updateName files src (.dir (setName inner src (.node nd)))))⟩
        | some (.node .symlinkBroken) =>
          .ok ⟨updateName (eraseName d.entries src) dst_dir
            (.dir (updateName files src (.dir (setName inner src (.node nd)))))⟩
        | some _ => .error (.destinationExists src)
      | some (.node .symlinkDir) =>
        .ok ⟨eraseName d.entries src⟩
      | _ =>
        .ok ⟨updateName (eraseName d.entries src) dst_dir
          (.dir (setName files src (.node nd)))⟩
    | some (.node _) => .error (.notADirectory dst_dir)
    | none => .error (.fileNotFound dst_dir)
  | some (.dir _) => .error (.isADirectory src)
  | none => .error (.fileNotFound src)

/-- The confirmation line printed for one moved file. -/
def moveLine (filename year_month : String) : String :=
  "Moved " ++ filename ++ " to " ++ year_month ++ "/"

/-- One iteration of the loop body of `organize_files_by_date` on the live
state: returns the new state, the printed line if any, and the uncaught
exception if any. Mutations performed before a failure persist, as they do
on a real filesystem. -/
def processFile (tz : Int) (d : WorkDir) (filename : String) :
    WorkDir × Option String × Option FsError :=
  if os_path_isfile d filename then
    match os_path_getmtime d filename with
    | .error e => (d, none, some e)
    | .ok mod_time =>
      let year_month := monthLabel tz mod_time
      match create_directory_if_not_exists d year_month with
      | .error e => (d, none, some e)
      | .ok d1 =>
        match shutil_move d1 filename year_month with
        | .error e => (d1, none, some e)
        | .ok d2 => (d2, some (moveLine filename year_month), none)
  else (d, none, none)

/-- Result of a run: final directory state, stdout lines in order, and the
uncaught exception if the run was aborted. -/
structure RunResult where
  fs : WorkDir
  output : List String
  err : Option FsError

/-- The `for filename in os.listdir('.')` loop: the name list is the snapshot
taken at entry, the state is live, and the first uncaught exception aborts
the whole run. -/
def organizeLoop (tz : Int) : WorkDir → List String → List String → RunResult
  | s, [], out => ⟨s, out, none⟩
  | s, n :: rest, out =>
    match processFile tz s n with
    | (s2, _, some e) => ⟨s2, out, some e⟩
    | (s2, some line, none) => organizeLoop tz s2 rest (out ++ [line])
    | (s2, none, none) => organizeLoop tz s2 rest out

/-- Direct translation of `organize_files_by_date`. -/
def organize_files_by_date (tz : Int) (d : WorkDir) : RunResult :=
  organizeLoop tz d (os_listdir d) []

/-! ### Well-formedness -/

/-- A directory entry is well formed when its listing has no duplicate
names. -/
def entryWf : Entry → Prop
  | .dir files => (keysOf files).Nodup
  | .node _ => True

instance (e : Entry) : Decidable (entryWf e) := by
  cases e with
  | node nd => exact isTrue trivial
  | dir files => exact inferInstanceAs (Decidable ((keysOf files).Nodup))

/-- A working directory is well formed when the top-level listing and every
subdirectory listing have no duplicate names. Any state read from a real
filesystem satisfies this. -/
def WorkDir.wf (d : WorkDir) : Prop :=
  (keysOf d.entries).Nodup ∧ ∀ p ∈ d.entries, entryWf p.2

instance (d : WorkDir) : Decidable d.wf :=
  inferInstanceAs (Decidable ((keysOf d.entries).Nodup ∧ ∀ p ∈ d.entries, entryWf p.2))

/-! ### Derived descriptions used to state and prove the claims

Everything below is defined purely from lookups on the initial directory
state, so it is independent of listing order; the run is then proved to
realize these descriptions. -/

/-- The month label an entry would be filed under, if it passes the
regular-file filter. -/
def labelOfNode (tz : Int) (nd : Node) : Option String :=
  (nodeMtime nd).map (monthLabel tz)

/-- The confirmation line a name contributes to stdout: present exactly when
the entry passes the `os.path.isfile` filter. -/
def viewLine (tz : Int) (d : WorkDir) (k : String) : Option String :=
  match lookupName d.entries k with
  | some (.node nd) => (nodeMtime nd).map (fun t => moveLine k (monthLabel tz t))
  | _ => none

/-- The stdout lines dictated by the spec's output contract: one
`Moved <name> to <label>/` line per entry passing the regular-file filter,
in listing order, and nothing for skipped entries. -/
def expectedOutput (tz : Int) (d : WorkDir) : List String :=
  (os_listdir d).filterMap (viewLine tz d)

/-- Among the names in `P`, the entry of name `k` if it is a to-be-moved
entry whose month label is `L`. -/
def moverTo (tz : Int) (d : WorkDir) (P : List String) (L k : String) : Option Node :=
  match lookupName d.entries k with
  | some (.node nd) => if k ∈ P ∧ labelOfNode tz nd = some L then some nd else none
  | _ => none

/-- Some name in `P` is a to-be-moved entry with month label `L`. -/
def anyMoverTo (tz : Int) (d : WorkDir) (P : List String) (L : String) : Prop :=
  ∃ p ∈ d.entries, (moverTo tz d P L p.1).isSome = true

instance (tz : Int) (d : WorkDir) (P : List String) (L : String) :
    Decidable (anyMoverTo tz d P L) :=
  inferInstanceAs (Decidable (∃ p ∈ d.entries, (moverTo tz d P L p.1).isSome = true))

/-- The entry found at `<L>/<k>` in the initial state. This is also what
`shutil.move` sees at its destination path when `k` is moved into `L`
mid-run: a month directory's entry under a mover's own name is never written
by any other iteration, and a label directory created during the run starts
empty. -/
def origContent (d : WorkDir) (L k : String) : Option Entry :=
  match lookupName d.entries L with
  | some (.dir files) => lookupName files k
  | _ => none

/-- Where the moved entry `nd` ends up, as seen from `L`'s contents at the
mover's own name: it replaces a plain occupant (or lands at a previously
free name), moves inside a directory occupant (to `<L>/<k>/<k>`), or
vanishes through a symlink-to-directory occupant into the link's target,
leaving the link in place. -/
def movedVal (d : WorkDir) (L k : String) (nd : Node) : Option Entry :=
  match origContent d L k with
  | some (.dir inner) => some (.dir (setName inner k (.node nd)))
  | some (.node .symlinkDir) => some (.node .symlinkDir)
  | _ => some (.node nd)

/-- The destination-path occupants that trigger the move-inside branch of
`shutil.move`: a directory or a symlink to a directory. -/
def isDirLike : Option Entry → Prop
  | some (.dir _) => True
  | some (.node .symlinkDir) => True
  | _ => False

instance (oe : Option Entry) : Decidable (isDirLike oe) := by
  cases oe with
  | none => exact isFalse id
  | some e =>
    cases e with
    | dir files => exact isTrue trivial
    | node nd =>
      cases nd with
      | symlinkDir => exact isTrue trivial
      | file f => exact isFalse id
      | symlinkFile f => exact isFalse id
      | symlinkBroken => exact isFalse id
      | special => exact isFalse id

/-- Contents of the directory named `L` after the names in `P` have been
processed: each moved entry lands according to the original occupant of its
destination path, and everything else keeps the original contents. -/
def dirDesc (tz : Int) (d : WorkDir) (P : List String) (L k : String) : Option Entry :=
  match moverTo tz d P L k with
  | some nd => movedVal d L k nd
  | none => origContent d L k

/-- Shape of a predicted entry: a literal non-directory entry, or a directory
given by its lookup function (the listing order inside a directory is
irrelevant to every claim). -/
inductive EShape where
  | node (nd : Node)
  | dirL (f : String → Option Entry)

/-- Predicted top-level lookup result at name `n` after the names in `P` have
been processed without error. -/
def midDesc (tz : Int) (d : WorkDir) (P : List String) (n : String) : Option EShape :=
  match lookupName d.entries n with
  | some (.node nd) =>
    if (nodeMtime nd).isSome then
      if n ∈ P then
        if anyMoverTo tz d P n then some (.dirL (dirDesc tz d P n)) else none
      else some (.node nd)
    else some (.node nd)
  | some (.dir _) => some (.dirL (dirDesc tz d P n))
  | none => if anyMoverTo tz d P n then some (.dirL (dirDesc tz d P n)) else none

def entryMatches : Entry → EShape → Prop
  | .node nd, .node nd2 => nd = nd2
  | .dir files, .dirL f => ∀ k, lookupName files k = f k
  | .node _, .dirL _ => False
  | .dir _, .node _ => False

def optMatches : Option Entry → Option EShape → Prop
  | none, none => True
  | some e, some sh => entryMatches e sh
  | none, some _ => False
  | some _, none => False

/-- Every month label targeted by an already-processed entry was an original
directory, an absent name, or the name of another already-processed moved
entry. An error-free processed prefix always satisfies this. -/
def labelsOk (tz : Int) (d : WorkDir) (P : List String) : Prop :=
  ∀ L, anyMoverTo tz d P L →
    (∃ files, lookupName d.entries L = some (.dir files))
    ∨ lookupName d.entries L = none
    ∨ (∃ nd, lookupName d.entries L = some (.node nd) ∧ (nodeMtime nd).isSome = true ∧ L ∈ P)

/-- Two entries denote the same filesystem object: directories are compared
by lookup (listing order inside a directory is not observable). -/
def entryEquiv : Entry → Entry → Prop
  | .node nd1, .node nd2 => nd1 = nd2
  | .dir f1, .dir f2 => ∀ k, lookupName f1 k = lookupName f2 k
  | .node _, .dir _ => False
  | .dir _, .node _ => False

def optEntryEquiv : Option Entry → Option Entry → Prop
  | none, none => True
  | some e1, some e2 => entryEquiv e1 e2
  | none, some _ => False
  | some _, none => False

/-! ## Association-list lemmas -/

section AssocLemmas

variable {α : Type}

@[simp] theorem keysOf_nil : keysOf ([] : List (String × α)) = [] := rfl

@[simp] theorem keysOf_cons (p : String × α) (l : List (String × α)) :
    keysOf (p :: l) = p.1 :: keysOf l := rfl

theorem keysOf_append (l1 l2 : List (String × α)) :
    keysOf (l1 ++ l2) = keysOf l1 ++ keysOf l2 :=
  List.map_append _ _ _

theorem lookupName_eq_none_iff (l : List (String × α)) (n : String) :
    lookupName l n = none ↔ n ∉ keysOf l := by
  induction l with
  | nil => simp [lookupName]
  | cons p rest ih =>
    obtain ⟨m, v⟩ := p
    simp only [lookupName, keysOf_cons, List.mem_cons]
    by_cases h : m = n
    · subst h; simp
    · rw [if_neg h, ih]
      constructor
      · intro h1 hc
        rcases hc with hc | hc
        · exact h hc.symm
        · exact h1 hc
      · intro h1 h2
        exact h1 (Or.inr h2)

theorem mem_keys_of_lookupName {l : List (String × α)} {n : String} {v : α}
    (h : lookupName l n = some v) : n ∈ keysOf l := by
  by_contra hc
  rw [← lookupName_eq_none_iff] at hc
  rw [h] at hc
  exact Option.noConfusion hc

theorem mem_of_lookupName {l : List (String × α)} {n : String} {v : α}
    (h : lookupName l n = some v) : (n, v) ∈ l := by
  induction l with
  | nil => exact absurd h (by simp [lookupName])
  | cons p rest ih =>
    obtain ⟨m, w⟩ := p
    simp only [lookupName] at h
    by_cases hm : m = n
    · subst hm
      rw [if_pos rfl] at h
      injection h with h
      subst h
      exact List.mem_cons_self _ _
    · rw [if_neg hm] at h
      exact List.mem_cons_of_mem _ (ih h)

theorem lookupName_append_left {l1 l2 : List (String × α)} {n : String} {v : α}
    (h : lookupName l1 n = some v) : lookupName (l1 ++ l2) n = some v := by
  induction l1 with
  | nil => exact absurd h (by simp [lookupName])
  | cons p rest ih =>
    obtain ⟨m, w⟩ := p
    simp only [lookupName, List.cons_append] at h ⊢
    by_cases hm : m = n
    · rwa [if_pos hm] at h ⊢
    · rw [if_neg hm] at h ⊢
      exact ih h

theorem lookupName_append_right {l1 l2 : List (String × α)} {n : String}
    (h : lookupName l1 n = none) : lookupName (l1 ++ l2) n = lookupName l2 n := by
  induction l1 with
  | nil => rfl
  | cons p rest ih =>
    obtain ⟨m, w⟩ := p
    simp only [lookupName, List.cons_append] at h ⊢
    by_cases hm : m = n
    · rw [if_pos hm] at h; exact Option.noConfusion h
    · rw [if_neg hm] at h ⊢
      exact ih h

theorem eraseName_sublist (l : List (String × α)) (n : String) :
    (eraseName l n).Sublist l := by
  induction l with
  | nil => simp [eraseName]
  | cons p rest ih =>
    obtain ⟨m, v⟩ := p
    simp only [eraseName]
    by_cases hm : m = n
    · rw [if_pos hm]; exact List.sublist_cons_self _ _
    · rw [if_neg hm]; exact ih.cons₂ _

theorem lookupName_eraseName_ne {l : List (String × α)} {m n : String}
    (h : m ≠ n) : lookupName (eraseName l n) m = lookupName l m := by
  induction l with
  | nil => rfl
  | cons p rest ih =>
    obtain ⟨a, v⟩ := p
    simp only [eraseName, lookupName]
    by_cases ha : a = n
    · rw [if_pos ha, if_neg (fun hc : a = m => h (hc ▸ ha ▸ rfl))]
    · rw [if_neg ha]
      simp only [lookupName]
      by_cases ham : a = m
      · rw [if_pos ham, if_pos ham]
      · rw [if_neg ham, if_neg ham]; exact ih

theorem lookupName_eraseName_self {l : List (String × α)} {n : String}
    (h : (keysOf l).Nodup) : lookupName (eraseName l n) n = none := by
  induction l with
  | nil => rfl
  | cons p rest ih =>
    obtain ⟨a, v⟩ := p
    simp only [keysOf_cons, List.nodup_cons] at h
    simp only [eraseName]
    by_cases ha : a = n
    · rw [if_pos ha, lookupName_eq_none_iff]
      subst ha; exact h.1
    · rw [if_neg ha]
      simp only [lookupName]
      rw [if_neg ha]
      exact ih h.2

theorem keysOf_updateName (l : List (String × α)) (n : String) (w : α) :
    keysOf (updateName l n w) = keysOf l := by
  induction l with
  | nil => rfl
  | cons p rest ih =>
    obtain ⟨a, v⟩ := p
    simp only [updateName]
    by_cases ha : a = n
    · rw [if_pos ha]; simp
    · rw [if_neg ha]; simp [ih]

theorem lookupName_updateName_ne {l : List (String × α)} {m n : String} (w : α)
    (h : m ≠ n) : lookupName (updateName l n w) m = lookupName l m := by
  induction l with
  | nil => rfl
  | cons p rest ih =>
    obtain ⟨a, v⟩ := p
    simp only [updateName]
    by_cases ha : a = n
    · rw [if_pos ha]
      simp only [lookupName]
      rw [if_neg (fun hc : a = m => h (hc ▸ ha ▸ rfl)), if_neg (fun hc : a = m => h (hc ▸ ha ▸ rfl))]
    · rw [if_neg ha]
      simp only [lookupName]
      by_cases ham : a = m
      · rw [if_pos ham, if_pos ham]
      · rw [if_neg ham, if_neg ham]; exact ih

theorem lookupName_updateName_self {l : List (String × α)} {n : String} (w : α)
    (h : n ∈ keysOf l) : lookupName (updateName l n w) n = some w := by
  induction l with
  | nil => simp at h
  | cons p rest ih =>
    obtain ⟨a, v⟩ := p
    simp only [updateName]
    by_cases ha : a = n
    · rw [if_pos ha]
      simp only [lookupName]
      rw [if_pos ha]
    · rw [if_neg ha]
      simp only [lookupName]
      rw [if_neg ha]
      refine ih ?_
      rcases List.mem_cons.mp h with h1 | h1
      · exact absurd h1.symm ha
      · exact h1

theorem mem_updateName {l : List (String × α)} {n : String} {w : α} {p : String × α}
    (h : p ∈ updateName l n w) : p ∈ l ∨ p = (n, w) := by
  induction l with
  | nil => simp [updateName] at h
  | cons q rest ih =>
    obtain ⟨a, v⟩ := q
    simp only [updateName] at h
    by_cases ha : a = n
    · rw [if_pos ha] at h
      rcases List.mem_cons.mp h with h1 | h1
      · right; rw [h1, ha]
      · left; exact List.mem_cons_of_mem _ h1
    · rw [if_neg ha] at h
      rcases List.mem_cons.mp h with h1 | h1
      · left; rw [h1]; exact List.mem_cons_self _ _
      · rcases ih h1 with h2 | h2
        · left; exact List.mem_cons_of_mem _ h2
        · right; exact h2

theorem lookupName_setName_self (l : List (String × α)) (n : String) (w : α) :
    lookupName (setName l n w) n = some w := by
  unfold setName
  cases hl : lookupName l n with
  | some v => exact lookupName_updateName_self w (mem_keys_of_lookupName hl)
  | none =>
    rw [lookupName_append_right hl]
    simp [lookupName]

theorem lookupName_setName_ne {l : List (String × α)} {m n : String} (w : α)
    (h : m ≠ n) : lookupName (setName l n w) m = lookupName l m := by
  unfold setName
  cases hl : lookupName l n with
  | some v => exact lookupName_updateName_ne w h
  | none =>
    cases hm : lookupName l m with
    | some v2 => rw [lookupName_append_left hm]
    | none =>
      rw [lookupName_append_right hm]
      simp only [lookupName]
      rw [if_neg (fun hc : n = m => h hc.symm)]

theorem mem_setName {l : List (String × α)} {n : String} {w : α} {p : String × α}
    (h : p ∈ setName l n w) : p ∈ l ∨ p = (n, w) := by
  unfold setName at h
  cases hl : lookupName l n with
  | some v => rw [hl] at h; exact mem_updateName h
  | none =>
    rw [hl] at h
    rcases List.mem_append.mp h with h1 | h1
    · left; exact h1
    · right; simpa using h1

theorem nodupKeys_eraseName {l : List (String × α)} (n : String)
    (h : (keysOf l).Nodup) : (keysOf (eraseName l n)).Nodup :=
  h.sublist ((eraseName_sublist l n).map Prod.fst)

theorem nodupKeys_setName {l : List (String × α)} {n : String} (w : α)
    (h : (keysOf l).Nodup) : (keysOf (setName l n w)).Nodup := by
  unfold setName
  cases hl : lookupName l n with
  | some v => rw [keysOf_updateName]; exact h
  | none =>
    rw [keysOf_append]
    have hn : n ∉ keysOf l := (lookupName_eq_none_iff l n).mp hl
    simp [List.nodup_append, h, hn]

theorem lookupName_perm {l1 l2 : List (String × α)} (h : l1.Perm l2)
    (hn : (keysOf l1).Nodup) (n : String) : lookupName l1 n = lookupName l2 n := by
  induction h with
  | nil => rfl
  | cons x h ih =>
    obtain ⟨a, v⟩ := x
    simp only [lookupName]
    by_cases ha : a = n
    · rw [if_pos ha, if_pos ha]
    · rw [if_neg ha, if_neg ha]
      exact ih ((List.nodup_cons.mp hn).2)
  | swap x y rest =>
    obtain ⟨a, v⟩ := x
    obtain ⟨b, w⟩ := y
    simp only [keysOf_cons, List.nodup_cons, List.mem_cons] at hn
    have hab : b ≠ a := fun hc => hn.1 (Or.inl hc)
    simp only [lookupName]
    by_cases hb : b = n
    · rw [if_pos hb, if_neg (fun hc : a = n => hab (hb ▸ hc ▸ rfl)), if_pos hb]
    · by_cases ha : a = n
      · rw [if_neg hb, if_pos ha, if_pos ha]
      · rw [if_neg hb, if_neg ha, if_neg ha, if_neg hb]
  | trans h1 h2 ih1 ih2 =>
    rw [ih1 hn, ih2 ((h1.map Prod.fst).nodup hn)]

end AssocLemmas

/-! ## Execution lemmas: one loop iteration -/

theorem os_path_isfile_of_none {s : WorkDir} {k : String}
    (h : lookupName s.entries k = none) : os_path_isfile s k = false := by
  simp [os_path_isfile, h]

theorem os_path_isfile_of_dir {s : WorkDir} {k : String} {files : List (String × Entry)}
    (h : lookupName s.entries k = some (.dir files)) : os_path_isfile s k = false := by
  simp [os_path_isfile, h]

theorem os_path_isfile_of_node {s : WorkDir} {k : String} {nd : Node}
    (h : lookupName s.entries k = some (.node nd)) :
    os_path_isfile s k = (nodeMtime nd).isSome := by
  simp [os_path_isfile, h]

theorem processFile_skip {tz : Int} {s : WorkDir} {k : String}
    (h : os_path_isfile s k = false) : processFile tz s k = (s, none, none) := by
  simp [processFile, h]

/-- The iteration that moves `k` into an already-existing directory `L`
whose entry at `k`'s own name is free: a plain insert. -/
theorem processFile_move_vacant {tz : Int} {s : WorkDir} {k L : String} {nd : Node}
    {t : Int} {filesL : List (String × Entry)}
    (hk : lookupName s.entries k = some (.node nd))
    (ht : nodeMtime nd = some t)
    (hL : monthLabel tz t = L)
    (hdL : lookupName s.entries L = some (.dir filesL))
    (hoc : lookupName filesL k = none) :
    processFile tz s k =
      (⟨updateName (eraseName s.entries k) L (.dir (setName filesL k (.node nd)))⟩,
        some (moveLine k L), none) := by
  subst hL
  simp [processFile, os_path_isfile, hk, ht, os_path_getmtime,
    create_directory_if_not_exists, os_path_exists, hdL, shutil_move, hoc]

/-- The iteration that moves `k` into `L` over a plain non-directory
occupant of the destination path: `os.rename` silently replaces it. -/
theorem processFile_move_replace {tz : Int} {s : WorkDir} {k L : String} {nd : Node}
    {t : Int} {filesL : List (String × Entry)} {ndO : Node}
    (hk : lookupName s.entries k = some (.node nd))
    (ht : nodeMtime nd = some t)
    (hL : monthLabel tz t = L)
    (hdL : lookupName s.entries L = some (.dir filesL))
    (hoc : lookupName filesL k = some (.node ndO))
    (hnd : ndO ≠ .symlinkDir) :
    processFile tz s k =
      (⟨updateName (eraseName s.entries k) L (.dir (setName filesL k (.node nd)))⟩,
        some (moveLine k L), none) := by
  subst hL
  cases ndO <;> simp_all [processFile, os_path_isfile, os_path_getmtime,
    create_directory_if_not_exists, os_path_exists, shutil_move]

/-- The iteration whose destination path is occupied by a directory with the
inner path `<L>/<k>/<k>` free: the entry moves inside the occupant. -/
theorem processFile_move_inside_fresh {tz : Int} {s : WorkDir} {k L : String} {nd : Node}
    {t : Int} {filesL inner : List (String × Entry)}
    (hk : lookupName s.entries k = some (.node nd))
    (ht : nodeMtime nd = some t)
    (hL : monthLabel tz t = L)
    (hdL : lookupName s.entries L = some (.dir filesL))
    (hoc : lookupName filesL k = some (.dir inner))
    (hcol : lookupName inner k = none) :
    processFile tz s k =
      (⟨updateName (eraseName s.entries k) L
          (.dir (updateName filesL k (.dir (setName inner k (.node nd)))))⟩,
        some (moveLine k L), none) := by
  subst hL
  simp [processFile, os_path_isfile, hk, ht, os_path_getmtime,
    create_directory_if_not_exists, os_path_exists, hdL, shutil_move, hoc, hcol]

/-- As `processFile_move_inside_fresh`, but the inner path holds a broken
symlink, which `os.path.exists` reports absent and `os.rename` replaces. -/
theorem processFile_move_inside_broken {tz : Int} {s : WorkDir} {k L : String} {nd : Node}
    {t : Int} {filesL inner : List (String × Entry)}
    (hk : lookupName s.entries k = some (.node nd))
    (ht : nodeMtime nd = some t)
    (hL : monthLabel tz t = L)
    (hdL : lookupName s.entries L = some (.dir filesL))
    (hoc : lookupName filesL k = some (.dir inner))
    (hcol : lookupName inner k = some (.node .symlinkBroken)) :
    processFile tz s k =
      (⟨updateName (eraseName s.entries k) L
          (.dir (updateName filesL k (.dir (setName inner k (.node nd)))))⟩,
        some (moveLine k L), none) := by
  subst hL
  simp [processFile, os_path_isfile, hk, ht, os_path_getmtime,
    create_directory_if_not_exists, os_path_exists, hdL, shutil_move, hoc, hcol]

/-- The iteration whose destination path is a symlink to a directory: the
entry leaves the modelled tree through the link, and the link stays. -/
theorem processFile_move_link {tz : Int} {s : WorkDir} {k L : String} {nd : Node}
    {t : Int} {filesL : List (String × Entry)}
    (hk : lookupName s.entries k = some (.node nd))
    (ht : nodeMtime nd = some t)
    (hL : monthLabel tz t = L)
    (hdL : lookupName s.entries L = some (.dir filesL))
    (hoc : lookupName filesL k = some (.node .symlinkDir)) :
    processFile tz s k = (⟨eraseName s.entries k⟩, some (moveLine k L), none) := by
  subst hL
  simp [processFile, os_path_isfile, hk, ht, os_path_getmtime,
    create_directory_if_not_exists, os_path_exists, hdL, shutil_move, hoc]

/-- The iteration that aborts with `shutil.Error`: the destination path is a
directory and the inner path `<L>/<k>/<k>` is already occupied by something
`os.path.exists` can see. The state is unchanged. -/
theorem processFile_err_exists {tz : Int} {s : WorkDir} {k L : String} {nd : Node}
    {t : Int} {filesL inner : List (String × Entry)} {colE : Entry}
    (hk : lookupName s.entries k = some (.node nd))
    (ht : nodeMtime nd = some t)
    (hL : monthLabel tz t = L)
    (hdL : lookupName s.entries L = some (.dir filesL))
    (hoc : lookupName filesL k = some (.dir inner))
    (hcol : lookupName inner k = some colE)
    (hnb : colE ≠ .node .symlinkBroken) :
    processFile tz s k = (s, none, some (.destinationExists k)) := by
  subst hL
  cases colE with
  | dir files2 =>
    simp [processFile, os_path_isfile, hk, ht, os_path_getmtime,
      create_directory_if_not_exists, os_path_exists, hdL, shutil_move, hoc, hcol]
  | node ndI =>
    cases ndI with
    | symlinkBroken => exact absurd rfl hnb
    | file f =>
      simp [processFile, os_path_isfile, hk, ht, os_path_getmtime,
        create_directory_if_not_exists, os_path_exists, hdL, shutil_move, hoc, hcol]
    | symlinkFile f =>
      simp [processFile, os_path_isfile, hk, ht, os_path_getmtime,
        create_directory_if_not_exists, os_path_exists, hdL, shutil_move, hoc, hcol]
    | symlinkDir =>
      simp [processFile, os_path_isfile, hk, ht, os_path_getmtime,
        create_directory_if_not_exists, os_path_exists, hdL, shutil_move, hoc, hcol]
    | special =>
      simp [processFile, os_path_isfile, hk, ht, os_path_getmtime,
        create_directory_if_not_exists, os_path_exists, hdL, shutil_move, hoc, hcol]

/-- The iteration that creates the directory `L` and then moves `k` into it. -/
theorem processFile_move_create {tz : Int} {s : WorkDir} {k L : String} {nd : Node}
    {t : Int}
    (hk : lookupName s.entries k = some (.node nd))
    (ht : nodeMtime nd = some t)
    (hL : monthLabel tz t = L)
    (hdL : lookupName s.entries L = none) :
    processFile tz s k =
      (⟨updateName (eraseName (s.entries ++ [(L, .dir [])]) k) L (.dir [(k, .node nd)])⟩,
        some (moveLine k L), none) := by
  subst hL
  have hkL : k ≠ monthLabel tz t := by
    intro hc
    rw [hc, hdL] at hk
    exact Option.noConfusion hk
  have h1 : lookupName (s.entries ++ [(monthLabel tz t, Entry.dir [])]) k = some (.node nd) :=
    lookupName_append_left hk
  have h2 : lookupName (s.entries ++ [(monthLabel tz t, Entry.dir [])]) (monthLabel tz t)
      = some (.dir []) := by
    rw [lookupName_append_right hdL]
    simp [lookupName]
  simp [processFile, os_path_isfile, hk, ht, os_path_getmtime,
    create_directory_if_not_exists, os_path_exists, hdL, os_makedirs, shutil_move, h1, h2,
    setName, lookupName]

/-- The iteration that aborts because the label is occupied by a broken
symlink: `os.path.exists` reports it absent, so `os.makedirs` is attempted
and raises. The state is unchanged. -/
theorem processFile_err_broken {tz : Int} {s : WorkDir} {k L : String} {nd : Node}
    {t : Int}
    (hk : lookupName s.entries k = some (.node nd))
    (ht : nodeMtime nd = some t)
    (hL : monthLabel tz t = L)
    (hdL : lookupName s.entries L = some (.node .symlinkBroken)) :
    processFile tz s k = (s, none, some (.fileExistsErr L)) := by
  subst hL
  simp [processFile, os_path_isfile, hk, ht, os_path_getmtime,
    create_directory_if_not_exists, os_path_exists, hdL, os_makedirs]

/-- The iteration that aborts because the label is occupied by a visible
non-directory entry: the existence check skips creation and the move raises
`NotADirectoryError`. The state is unchanged. -/
theorem processFile_err_occupied {tz : Int} {s : WorkDir} {k L : String} {nd : Node}
    {t : Int} {ndL : Node}
    (hk : lookupName s.entries k = some (.node nd))
    (ht : nodeMtime nd = some t)
    (hL : monthLabel tz t = L)
    (hdL : lookupName s.entries L = some (.node ndL))
    (hnb : ndL ≠ .symlinkBroken) :
    processFile tz s k = (s, none, some (.notADirectory L)) := by
  subst hL
  cases ndL <;>
    simp_all [processFile, os_path_isfile, hk, ht, os_path_getmtime,
      create_directory_if_not_exists, os_path_exists, hdL, shutil_move]

/-- Top-level lookups after an erase-then-update move step. -/
theorem lookup_moveResult {s : WorkDir} {k L : String} (E : Entry) {EL : Entry}
    (hnodup : (keysOf s.entries).Nodup) (hkL : k ≠ L)
    (hL : lookupName s.entries L = some EL) (n : String) :
    lookupName (updateName (eraseName s.entries k) L E) n
      = if n = L then some E
        else if n = k then none
        else lookupName s.entries n := by
  by_cases hnL : n = L
  · subst hnL
    rw [if_pos rfl]
    have hEL : lookupName (eraseName s.entries k) n = some EL := by
      rw [lookupName_eraseName_ne (fun hc : n = k => hkL hc.symm)]
      exact hL
    exact lookupName_updateName_self E (mem_keys_of_lookupName hEL)
  · rw [if_neg hnL, lookupName_updateName_ne E hnL]
    by_cases hnk : n = k
    · subst hnk
      rw [if_pos rfl]
      exact lookupName_eraseName_self hnodup
    · rw [if_neg hnk, lookupName_eraseName_ne hnk]

/-- Top-level lookups after erasing one name. -/
theorem lookup_eraseTop {s : WorkDir} {k : String}
    (hnodup : (keysOf s.entries).Nodup) (n : String) :
    lookupName (eraseName s.entries k) n
      = if n = k then none else lookupName s.entries n := by
  by_cases hnk : n = k
  · subst hnk
    rw [if_pos rfl]
    exact lookupName_eraseName_self hnodup
  · rw [if_neg hnk, lookupName_eraseName_ne hnk]

/-- Top-level lookups after creating a fresh empty directory. -/
theorem lookup_makedirsResult {s : WorkDir} {L : String}
    (hL : lookupName s.entries L = none) (n : String) :
    lookupName (s.entries ++ [(L, Entry.dir [])]) n
      = if n = L then some (.dir []) else lookupName s.entries n := by
  by_cases hnL : n = L
  · subst hnL
    rw [if_pos rfl, lookupName_append_right hL]
    simp [lookupName]
  · rw [if_neg hnL]
    cases hn : lookupName s.entries n with
    | some v => exact lookupName_append_left hn
    | none =>
      rw [lookupName_append_right hn]
      simp only [lookupName]
      rw [if_neg (fun hc : L = n => hnL hc.symm)]

theorem wf_updateTop {s : WorkDir} {k L : String} {files2 : List (String × Entry)}
    (hwf : s.wf) (hn : (keysOf files2).Nodup) :
    (⟨updateName (eraseName s.entries k) L (.dir files2)⟩ : WorkDir).wf := by
  constructor
  · show (keysOf (updateName (eraseName s.entries k) L (.dir files2))).Nodup
    rw [keysOf_updateName]
    exact nodupKeys_eraseName k hwf.1
  · intro p hp
    rcases mem_updateName hp with h1 | h1
    · exact hwf.2 p ((eraseName_sublist _ _).subset h1)
    · rw [h1]
      exact hn

theorem wf_eraseTop {s : WorkDir} (k : String) (hwf : s.wf) :
    (⟨eraseName s.entries k⟩ : WorkDir).wf := by
  constructor
  · exact nodupKeys_eraseName k hwf.1
  · intro p hp
    exact hwf.2 p ((eraseName_sublist _ _).subset hp)

theorem wf_makedirsResult {s : WorkDir} {L : String}
    (hwf : s.wf) (hL : lookupName s.entries L = none) :
    (⟨s.entries ++ [(L, Entry.dir [])]⟩ : WorkDir).wf := by
  constructor
  · show (keysOf (s.entries ++ [(L, Entry.dir [])])).Nodup
    rw [keysOf_append]
    have hn : L ∉ keysOf s.entries := (lookupName_eq_none_iff _ _).mp hL
    simp [List.nodup_append, hwf.1, hn]
  · intro p hp
    rcases List.mem_append.mp hp with h1 | h1
    · exact hwf.2 p h1
    · have : p = (L, Entry.dir []) := by simpa using h1
      rw [this]
      show (keysOf ([] : List (String × Entry))).Nodup
      simp

/-! ## Lemmas about the order-free run description -/

theorem moverTo_some {tz : Int} {d : WorkDir} {P : List String} {L k : String} {nd : Node}
    (hlk : lookupName d.entries k = some (.node nd)) (hin : k ∈ P)
    (hlab : labelOfNode tz nd = some L) : moverTo tz d P L k = some nd := by
  simp [moverTo, hlk, hin, hlab]

theorem moverTo_inv {tz : Int} {d : WorkDir} {P : List String} {L k : String} {nd : Node}
    (h : moverTo tz d P L k = some nd) :
    lookupName d.entries k = some (.node nd) ∧ k ∈ P ∧ labelOfNode tz nd = some L := by
  unfold moverTo at h
  cases hlk : lookupName d.entries k with
  | none => rw [hlk] at h; exact Option.noConfusion h
  | some e =>
    rw [hlk] at h
    cases e with
    | dir files => exact Option.noConfusion h
    | node nd0 =>
      dsimp only at h
      by_cases hc : k ∈ P ∧ labelOfNode tz nd0 = some L
      · rw [if_pos hc] at h
        injection h with h
        subst h
        exact ⟨rfl, hc.1, hc.2⟩
      · rw [if_neg hc] at h
        exact Option.noConfusion h

theorem moverTo_of_not_mem {tz : Int} {d : WorkDir} {P : List String} {L k : String}
    (h : k ∉ P) : moverTo tz d P L k = none := by
  cases hm : moverTo tz d P L k with
  | none => rfl
  | some nd => exact absurd (moverTo_inv hm).2.1 h

theorem anyMoverTo_of_some {tz : Int} {d : WorkDir} {P : List String} {L k : String}
    {nd : Node} (h : moverTo tz d P L k = some nd) : anyMoverTo tz d P L := by
  obtain ⟨hlk, _, _⟩ := moverTo_inv h
  exact ⟨(k, .node nd), mem_of_lookupName hlk, by simp [h]⟩

theorem anyMoverTo_inv {tz : Int} {d : WorkDir} {P : List String} {L : String}
    (h : anyMoverTo tz d P L) : ∃ k nd, moverTo tz d P L k = some nd := by
  obtain ⟨p, hp, hs⟩ := h
  cases hm : moverTo tz d P L p.1 with
  | none => rw [hm] at hs; simp at hs
  | some nd => exact ⟨p.1, nd, hm⟩

theorem moverTo_eq_none_of_not_any {tz : Int} {d : WorkDir} {P : List String} {L : String}
    (h : ¬ anyMoverTo tz d P L) (k : String) : moverTo tz d P L k = none := by
  cases hm : moverTo tz d P L k with
  | none => rfl
  | some nd => exact absurd (anyMoverTo_of_some hm) h

theorem moverTo_mono {tz : Int} {d : WorkDir} {P P' : List String} {L k : String} {nd : Node}
    (hsub : ∀ x ∈ P, x ∈ P') (h : moverTo tz d P L k = some nd) :
    moverTo tz d P' L k = some nd := by
  obtain ⟨h1, h2, h3⟩ := moverTo_inv h
  exact moverTo_some h1 (hsub _ h2) h3

/-! Characterizations of `midDesc` by the original entry at the name. -/

theorem midDesc_of_dir {tz : Int} {d : WorkDir} {P : List String} {n : String}
    {files : List (String × Entry)} (h : lookupName d.entries n = some (.dir files)) :
    midDesc tz d P n = some (.dirL (dirDesc tz d P n)) := by
  simp [midDesc, h]

theorem midDesc_of_node_nofile {tz : Int} {d : WorkDir} {P : List String} {n : String}
    {nd : Node} (h : lookupName d.entries n = some (.node nd))
    (hm : nodeMtime nd = none) : midDesc tz d P n = some (.node nd) := by
  simp [midDesc, h, hm]

theorem midDesc_of_node_file_notin {tz : Int} {d : WorkDir} {P : List String} {n : String}
    {nd : Node} {t : Int} (h : lookupName d.entries n = some (.node nd))
    (hm : nodeMtime nd = some t) (hP : n ∉ P) : midDesc tz d P n = some (.node nd) := by
  simp [midDesc, h, hm, hP]

theorem midDesc_of_node_file_in {tz : Int} {d : WorkDir} {P : List String} {n : String}
    {nd : Node} {t : Int} (h : lookupName d.entries n = some (.node nd))
    (hm : nodeMtime nd = some t) (hP : n ∈ P) :
    midDesc tz d P n
      = if anyMoverTo tz d P n then some (.dirL (dirDesc tz d P n)) else none := by
  simp [midDesc, h, hm, hP]

theorem midDesc_of_absent {tz : Int} {d : WorkDir} {P : List String} {n : String}
    (h : lookupName d.entries n = none) :
    midDesc tz d P n
      = if anyMoverTo tz d P n then some (.dirL (dirDesc tz d P n)) else none := by
  simp [midDesc, h]

/-! Extending the processed prefix by a skipped (non-moved) name changes
nothing in the description. -/

theorem moverTo_append_skip {tz : Int} {d : WorkDir} {P : List String} {k L j : String}
    (hknd : ∀ nd, lookupName d.entries k = some (.node nd) → nodeMtime nd = none) :
    moverTo tz d (P ++ [k]) L j = moverTo tz d P L j := by
  unfold moverTo
  cases hlj : lookupName d.entries j with
  | none => rfl
  | some e =>
    cases e with
    | dir files => rfl
    | node nd =>
      by_cases hjk : j = k
      · subst hjk
        have : nodeMtime nd = none := hknd nd hlj
        simp [labelOfNode, this]
      · simp [List.mem_append, hjk]

theorem anyMoverTo_append_skip (tz : Int) (d : WorkDir) (P : List String) (k L : String)
    (hknd : ∀ nd, lookupName d.entries k = some (.node nd) → nodeMtime nd = none) :
    anyMoverTo tz d (P ++ [k]) L ↔ anyMoverTo tz d P L := by
  unfold anyMoverTo
  constructor
  · rintro ⟨p, hp, hs⟩
    exact ⟨p, hp, by rwa [moverTo_append_skip hknd] at hs⟩
  · rintro ⟨p, hp, hs⟩
    exact ⟨p, hp, by rwa [moverTo_append_skip hknd]⟩

theorem dirDesc_append_skip (tz : Int) (d : WorkDir) (P : List String) (k n : String)
    (hknd : ∀ nd, lookupName d.entries k = some (.node nd) → nodeMtime nd = none) :
    dirDesc tz d (P ++ [k]) n = dirDesc tz d P n := by
  funext j
  unfold dirDesc
  rw [moverTo_append_skip hknd]

theorem midDesc_append_skip {tz : Int} {d : WorkDir} {P : List String} {k n : String}
    (hknd : ∀ nd, lookupName d.entries k = some (.node nd) → nodeMtime nd = none) :
    midDesc tz d (P ++ [k]) n = midDesc tz d P n := by
  have hd := dirDesc_append_skip tz d P k n hknd
  have ha := anyMoverTo_append_skip tz d P k n hknd
  cases hln : lookupName d.entries n with
  | none =>
    rw [midDesc_of_absent hln, midDesc_of_absent hln, hd]
    by_cases hA : anyMoverTo tz d P n
    · rw [if_pos (ha.mpr hA), if_pos hA]
    · rw [if_neg (fun hc => hA (ha.mp hc)), if_neg hA]
  | some e =>
    cases e with
    | dir files => rw [midDesc_of_dir hln, midDesc_of_dir hln, hd]
    | node nd =>
      cases hmt : nodeMtime nd with
      | none => rw [midDesc_of_node_nofile hln hmt, midDesc_of_node_nofile hln hmt]
      | some t =>
        have hnk : n ≠ k := by
          intro hc
          rw [hknd nd (hc ▸ hln)] at hmt
          exact Option.noConfusion hmt
        by_cases hP : n ∈ P
        · rw [midDesc_of_node_file_in hln hmt (List.mem_append_left _ hP),
            midDesc_of_node_file_in hln hmt hP, hd]
          by_cases hA : anyMoverTo tz d P n
          · rw [if_pos (ha.mpr hA), if_pos hA]
          · rw [if_neg (fun hc => hA (ha.mp hc)), if_neg hA]
        · have hP' : n ∉ P ++ [k] := by
            simp [List.mem_append, hP, hnk]
          rw [midDesc_of_node_file_notin hln hmt hP',
            midDesc_of_node_file_notin hln hmt hP]

theorem labelsOk_append_skip {tz : Int} {d : WorkDir} {P : List String} {k : String}
    (hknd : ∀ nd, lookupName d.entries k = some (.node nd) → nodeMtime nd = none)
    (h : labelsOk tz d P) : labelsOk tz d (P ++ [k]) := by
  intro L hL
  rcases h L ((anyMoverTo_append_skip tz d P k L hknd).mp hL) with h1 | h1 | h1
  · exact Or.inl h1
  · exact Or.inr (Or.inl h1)
  · obtain ⟨nd, h2, h3, h4⟩ := h1
    exact Or.inr (Or.inr ⟨nd, h2, h3, List.mem_append_left _ h4⟩)

/-! Extending the processed prefix by a moved entry `k` with label `L`. -/

theorem moverTo_append_mover_ne {tz : Int} {d : WorkDir} {P : List String} {k L' j : String}
    (hjk : j ≠ k) : moverTo tz d (P ++ [k]) L' j = moverTo tz d P L' j := by
  unfold moverTo
  cases hlj : lookupName d.entries j with
  | none => rfl
  | some e =>
    cases e with
    | dir files => rfl
    | node nd => simp [List.mem_append, hjk]

theorem moverTo_append_mover_self {tz : Int} {d : WorkDir} {P : List String} {k L L' : String}
    {ndk : Node} (hk : lookupName d.entries k = some (.node ndk))
    (hlab : labelOfNode tz ndk = some L) :
    moverTo tz d (P ++ [k]) L' k = if L' = L then some ndk else none := by
  unfold moverTo
  rw [hk]
  dsimp only
  by_cases hL' : L' = L
  · subst hL'
    simp [List.mem_append, hlab]
  · rw [if_neg hL', if_neg]
    rintro ⟨-, hc⟩
    rw [hlab] at hc
    injection hc with hc
    exact hL' hc.symm

theorem anyMoverTo_append_mover_ne {tz : Int} {d : WorkDir} {P : List String}
    {k L L' : String} {ndk : Node} (hk : lookupName d.entries k = some (.node ndk))
    (hlab : labelOfNode tz ndk = some L) (hkP : k ∉ P) (hL' : L' ≠ L) :
    anyMoverTo tz d (P ++ [k]) L' ↔ anyMoverTo tz d P L' := by
  constructor
  · intro h
    obtain ⟨j, nd, hm⟩ := anyMoverTo_inv h
    by_cases hjk : j = k
    · subst hjk
      rw [moverTo_append_mover_self hk hlab, if_neg hL'] at hm
      exact absurd hm (by simp)
    · rw [moverTo_append_mover_ne hjk] at hm
      exact anyMoverTo_of_some hm
  · intro h
    obtain ⟨j, nd, hm⟩ := anyMoverTo_inv h
    exact anyMoverTo_of_some (moverTo_mono (fun x hx => List.mem_append_left _ hx) hm)

theorem anyMoverTo_append_mover_self {tz : Int} {d : WorkDir} {P : List String}
    {k L : String} {ndk : Node} (hk : lookupName d.entries k = some (.node ndk))
    (hlab : labelOfNode tz ndk = some L) : anyMoverTo tz d (P ++ [k]) L :=
  anyMoverTo_of_some
    (moverTo_some hk (List.mem_append_right _ (List.mem_singleton_self _)) hlab)

theorem dirDesc_append_mover {tz : Int} {d : WorkDir} {P : List String} {k L : String}
    {ndk : Node} (hk : lookupName d.entries k = some (.node ndk))
    (hlab : labelOfNode tz ndk = some L) (j : String) :
    dirDesc tz d (P ++ [k]) L j
      = if j = k then movedVal d L k ndk else dirDesc tz d P L j := by
  by_cases hjk : j = k
  · subst hjk
    rw [if_pos rfl]
    unfold dirDesc
    rw [moverTo_append_mover_self hk hlab, if_pos rfl]
  · rw [if_neg hjk]
    unfold dirDesc
    rw [moverTo_append_mover_ne hjk]

theorem dirDesc_append_mover_other {tz : Int} {d : WorkDir} {P : List String}
    {k L n : String} {ndk : Node} (hk : lookupName d.entries k = some (.node ndk))
    (hlab : labelOfNode tz ndk = some L) (hkP : k ∉ P) (hnL : n ≠ L) :
    dirDesc tz d (P ++ [k]) n = dirDesc tz d P n := by
  funext j
  by_cases hjk : j = k
  · subst hjk
    unfold dirDesc
    rw [moverTo_append_mover_self hk hlab, if_neg hnL, moverTo_of_not_mem hkP]
  · unfold dirDesc
    rw [moverTo_append_mover_ne hjk]

theorem midDesc_append_mover_other {tz : Int} {d : WorkDir} {P : List String}
    {k L n : String} {ndk : Node} (hk : lookupName d.entries k = some (.node ndk))
    (hlab : labelOfNode tz ndk = some L) (hkP : k ∉ P)
    (hnk : n ≠ k) (hnL : n ≠ L) :
    midDesc tz d (P ++ [k]) n = midDesc tz d P n := by
  have hd := dirDesc_append_mover_other hk hlab hkP hnL
  have ha := anyMoverTo_append_mover_ne hk hlab hkP hnL
  cases hln : lookupName d.entries n with
  | none =>
    rw [midDesc_of_absent hln, midDesc_of_absent hln, hd]
    by_cases hA : anyMoverTo tz d P n
    · rw [if_pos (ha.mpr hA), if_pos hA]
    · rw [if_neg (fun hc => hA (ha.mp hc)), if_neg hA]
  | some e =>
    cases e with
    | dir files => rw [midDesc_of_dir hln, midDesc_of_dir hln, hd]
    | node nd =>
      cases hmt : nodeMtime nd with
      | none => rw [midDesc_of_node_nofile hln hmt, midDesc_of_node_nofile hln hmt]
      | some t =>
        by_cases hP : n ∈ P
        · rw [midDesc_of_node_file_in hln hmt (List.mem_append_left _ hP),
            midDesc_of_node_file_in hln hmt hP, hd]
          by_cases hA : anyMoverTo tz d P n
          · rw [if_pos (ha.mpr hA), if_pos hA]
          · rw [if_neg (fun hc => hA (ha.mp hc)), if_neg hA]
        · have hP' : n ∉ P ++ [k] := by
            simp [List.mem_append, hP, hnk]
          rw [midDesc_of_node_file_notin hln hmt hP',
            midDesc_of_node_file_notin hln hmt hP]

theorem midDesc_append_mover_self {tz : Int} {d : WorkDir} {P : List String}
    {k L : String} {ndk : Node} {t : Int}
    (hk : lookupName d.entries k = some (.node ndk))
    (hmt : nodeMtime ndk = some t)
    (hlab : labelOfNode tz ndk = some L) (hkP : k ∉ P) (hLk : L ≠ k)
    (hOk : labelsOk tz d P) :
    midDesc tz d (P ++ [k]) k = none := by
  rw [midDesc_of_node_file_in hk hmt (List.mem_append_right _ (List.mem_singleton_self _))]
  rw [if_neg]
  intro hA
  obtain ⟨j, nd, hm⟩ := anyMoverTo_inv hA
  by_cases hjk : j = k
  · rw [hjk, moverTo_append_mover_self hk hlab] at hm
    by_cases hc : (k : String) = L
    · exact hLk hc.symm
    · rw [if_neg hc] at hm
      exact Option.noConfusion hm
  · rw [moverTo_append_mover_ne hjk] at hm
    rcases hOk k (anyMoverTo_of_some hm) with h1 | h1 | h1
    · obtain ⟨files, h2⟩ := h1
      rw [hk] at h2
      exact Entry.noConfusion (Option.some.inj h2)
    · rw [hk] at h1
      exact Option.noConfusion h1
    · obtain ⟨nd2, h2, h3, h4⟩ := h1
      exact hkP h4

theorem midDesc_append_mover_label {tz : Int} {d : WorkDir} {P : List String}
    {k L : String} {ndk : Node}
    (hk : lookupName d.entries k = some (.node ndk))
    (hlab : labelOfNode tz ndk = some L)
    (horig : (∃ files, lookupName d.entries L = some (.dir files))
      ∨ lookupName d.entries L = none
      ∨ (∃ ndL t, lookupName d.entries L = some (.node ndL)
          ∧ nodeMtime ndL = some t ∧ L ∈ P)) :
    midDesc tz d (P ++ [k]) L = some (.dirL (dirDesc tz d (P ++ [k]) L)) := by
  have hA : anyMoverTo tz d (P ++ [k]) L := anyMoverTo_append_mover_self hk hlab
  rcases horig with ⟨files, h1⟩ | h1 | ⟨ndL, t, h1, h2, h3⟩
  · exact midDesc_of_dir h1
  · rw [midDesc_of_absent h1, if_pos hA]
  · rw [midDesc_of_node_file_in h1 h2 (List.mem_append_left _ h3), if_pos hA]

theorem labelsOk_append_mover {tz : Int} {d : WorkDir} {P : List String}
    {k L : String} {ndk : Node}
    (hk : lookupName d.entries k = some (.node ndk))
    (hlab : labelOfNode tz ndk = some L) (hkP : k ∉ P)
    (hOk : labelsOk tz d P)
    (horig : (∃ files, lookupName d.entries L = some (.dir files))
      ∨ lookupName d.entries L = none
      ∨ (∃ ndL t, lookupName d.entries L = some (.node ndL)
          ∧ nodeMtime ndL = some t ∧ L ∈ P)) :
    labelsOk tz d (P ++ [k]) := by
  intro L0 hL0
  by_cases hc : L0 = L
  · subst hc
    rcases horig with h1 | h1 | ⟨ndL, t, h1, h2, h3⟩
    · exact Or.inl h1
    · exact Or.inr (Or.inl h1)
    · exact Or.inr (Or.inr ⟨ndL, h1, by simp [h2], List.mem_append_left _ h3⟩)
  · rcases hOk L0 ((anyMoverTo_append_mover_ne hk hlab hkP hc).mp hL0) with h1 | h1 | h1
    · exact Or.inl h1
    · exact Or.inr (Or.inl h1)
    · obtain ⟨nd, h2, h3, h4⟩ := h1
      exact Or.inr (Or.inr ⟨nd, h2, h3, List.mem_append_left _ h4⟩)

/-! Start of the run: with nothing processed, the description is the initial
state itself. -/

theorem anyMoverTo_nil {tz : Int} {d : WorkDir} {L : String} :
    ¬ anyMoverTo tz d [] L := by
  intro h
  obtain ⟨j, nd, hm⟩ := anyMoverTo_inv h
  exact List.not_mem_nil j (moverTo_inv hm).2.1

theorem midDesc_nil_matches {tz : Int} {d : WorkDir} (n : String) :
    optMatches (lookupName d.entries n) (midDesc tz d [] n) := by
  cases hln : lookupName d.entries n with
  | none =>
    rw [midDesc_of_absent hln, if_neg anyMoverTo_nil]
    trivial
  | some e =>
    cases e with
    | dir files =>
      rw [midDesc_of_dir hln]
      show entryMatches (Entry.dir files) (EShape.dirL (dirDesc tz d [] n))
      show ∀ j, lookupName files j = dirDesc tz d [] n j
      intro j
      unfold dirDesc origContent
      rw [moverTo_of_not_mem (List.not_mem_nil _), hln]
    | node nd =>
      cases hmt : nodeMtime nd with
      | none =>
        rw [midDesc_of_node_nofile hln hmt]
        show nd = nd
        rfl
      | some t =>
        rw [midDesc_of_node_file_notin hln hmt (List.not_mem_nil _)]
        show nd = nd
        rfl

theorem labelsOk_nil {tz : Int} {d : WorkDir} : labelsOk tz d [] :=
  fun _ h => absurd h anyMoverTo_nil

/-! Inversion of the description at a name predicted to be a directory or to
be absent. -/

theorem midDesc_dirL_inv {tz : Int} {d : WorkDir} {P : List String} {L : String}
    {g : String → Option Entry} (h : midDesc tz d P L = some (.dirL g)) :
    g = dirDesc tz d P L
    ∧ ((∃ files, lookupName d.entries L = some (.dir files))
      ∨ lookupName d.entries L = none
      ∨ (∃ ndL t, lookupName d.entries L = some (.node ndL)
          ∧ nodeMtime ndL = some t ∧ L ∈ P)) := by
  cases hlL : lookupName d.entries L with
  | none =>
    rw [midDesc_of_absent hlL] at h
    by_cases hA : anyMoverTo tz d P L
    · rw [if_pos hA] at h
      injection h with h
      injection h with h
      exact ⟨h.symm, Or.inr (Or.inl rfl)⟩
    · rw [if_neg hA] at h
      exact Option.noConfusion h
  | some e =>
    cases e with
    | dir files =>
      rw [midDesc_of_dir hlL] at h
      injection h with h
      injection h with h
      exact ⟨h.symm, Or.inl ⟨files, rfl⟩⟩
    | node ndL =>
      cases hmt : nodeMtime ndL with
      | none =>
        rw [midDesc_of_node_nofile hlL hmt] at h
        injection h with h
        exact EShape.noConfusion h
      | some t =>
        by_cases hP : L ∈ P
        · rw [midDesc_of_node_file_in hlL hmt hP] at h
          by_cases hA : anyMoverTo tz d P L
          · rw [if_pos hA] at h
            injection h with h
            injection h with h
            exact ⟨h.symm, Or.inr (Or.inr ⟨ndL, t, rfl, hmt, hP⟩)⟩
          · rw [if_neg hA] at h
            exact Option.noConfusion h
        · rw [midDesc_of_node_file_notin hlL hmt hP] at h
          injection h with h
          exact EShape.noConfusion h

theorem midDesc_none_inv {tz : Int} {d : WorkDir} {P : List String} {L : String}
    (h : midDesc tz d P L = none) :
    ¬ anyMoverTo tz d P L
    ∧ (lookupName d.entries L = none
      ∨ (∃ ndL t, lookupName d.entries L = some (.node ndL)
          ∧ nodeMtime ndL = some t ∧ L ∈ P)) := by
  cases hlL : lookupName d.entries L with
  | none =>
    rw [midDesc_of_absent hlL] at h
    by_cases hA : anyMoverTo tz d P L
    · rw [if_pos hA] at h
      exact Option.noConfusion h
    · exact ⟨hA, Or.inl rfl⟩
  | some e =>
    cases e with
    | dir files =>
      rw [midDesc_of_dir hlL] at h
      exact Option.noConfusion h
    | node ndL =>
      cases hmt : nodeMtime ndL with
      | none =>
        rw [midDesc_of_node_nofile hlL hmt] at h
        exact Option.noConfusion h
      | some t =>
        by_cases hP : L ∈ P
        · rw [midDesc_of_node_file_in hlL hmt hP] at h
          by_cases hA : anyMoverTo tz d P L
          · rw [if_pos hA] at h
            exact Option.noConfusion h
          · exact ⟨hA, Or.inr ⟨ndL, t, rfl, hmt, hP⟩⟩
        · rw [midDesc_of_node_file_notin hlL hmt hP] at h
          exact Option.noConfusion h

theorem optMatches_some_node {oe : Option Entry} {nd : Node}
    (h : optMatches oe (some (.node nd))) : oe = some (.node nd) := by
  cases oe with
  | none => exact h.elim
  | some e =>
    cases e with
    | node nd2 =>
      have h2 : nd2 = nd := h
      rw [h2]
    | dir files => exact h.elim

theorem optMatches_some_dirL {oe : Option Entry} {g : String → Option Entry}
    (h : optMatches oe (some (.dirL g))) :
    ∃ files, oe = some (.dir files) ∧ ∀ j, lookupName files j = g j := by
  cases oe with
  | none => exact h.elim
  | some e =>
    cases e with
    | node nd2 => exact h.elim
    | dir files => exact ⟨files, rfl, h⟩

theorem optMatches_none_inv {sh : Option EShape} (h : optMatches none sh) :
    sh = none := by
  cases sh with
  | none => rfl
  | some x => exact h.elim

theorem optMatches_dir {files : List (String × Entry)} {g : String → Option Entry}
    (h : ∀ j, lookupName files j = g j) :
    optMatches (some (.dir files)) (some (.dirL g)) := h

/-! Helper lemmas for the induction step of the run invariant. -/

theorem origContent_eq_runtime {tz : Int} {d : WorkDir} {P : List String} {L k : String}
    {filesL : List (String × Entry)} (hkP : k ∉ P)
    (hcontentL : ∀ j, lookupName filesL j = dirDesc tz d P L j) :
    origContent d L k = lookupName filesL k := by
  rw [hcontentL k]
  unfold dirDesc
  rw [moverTo_of_not_mem hkP]

theorem movedVal_of_not_dirLike {d : WorkDir} {L k : String} (nd : Node)
    (h : ¬ isDirLike (origContent d L k)) :
    movedVal d L k nd = some (.node nd) := by
  unfold movedVal
  cases hoc : origContent d L k with
  | none => rfl
  | some e =>
    cases e with
    | dir inner =>
      rw [hoc] at h
      exact absurd trivial h
    | node ndO =>
      cases ndO with
      | symlinkDir =>
        rw [hoc] at h
        exact absurd trivial h
      | file f => rfl
      | symlinkFile f => rfl
      | symlinkBroken => rfl
      | special => rfl

/-- One moved entry extends the run invariant, in the common shape where the
final state updates the label directory to new contents `filesL2` that agree
with the old contents away from `k` and hold the moved value at `k`. -/
theorem step_inv_update (tz : Int) (d s : WorkDir) {P : List String} {k L : String}
    {ndk : Node} {t : Int} {filesL filesL2 : List (String × Entry)}
    (hek : lookupName d.entries k = some (.node ndk))
    (hmt : nodeMtime ndk = some t)
    (hlab : labelOfNode tz ndk = some L)
    (hkP : k ∉ P) (hkL : k ≠ L)
    (hOk : labelsOk tz d P)
    (hnodup : (keysOf s.entries).Nodup)
    (hsL : lookupName s.entries L = some (.dir filesL))
    (hinvO : ∀ n, n ≠ L → n ≠ k → optMatches (lookupName s.entries n) (midDesc tz d P n))
    (horig : (∃ files, lookupName d.entries L = some (.dir files))
      ∨ lookupName d.entries L = none
      ∨ (∃ ndL t', lookupName d.entries L = some (.node ndL)
          ∧ nodeMtime ndL = some t' ∧ L ∈ P))
    (hself : lookupName filesL2 k = movedVal d L k ndk)
    (hother : ∀ j, j ≠ k → lookupName filesL2 j = lookupName filesL j)
    (hcontentL : ∀ j, lookupName filesL j = dirDesc tz d P L j) :
    ∀ n, optMatches
      (lookupName (updateName (eraseName s.entries k) L (.dir filesL2)) n)
      (midDesc tz d (P ++ [k]) n) := by
  have hLk : L ≠ k := fun hc => hkL hc.symm
  intro n
  rw [lookup_moveResult (Entry.dir filesL2) hnodup hkL hsL n]
  by_cases hnL : n = L
  · subst hnL
    rw [if_pos rfl, midDesc_append_mover_label hek hlab horig]
    refine optMatches_dir ?_
    intro j
    rw [dirDesc_append_mover hek hlab j]
    by_cases hjk : j = k
    · subst hjk
      rw [if_pos rfl, hself]
    · rw [if_neg hjk, hother j hjk, hcontentL j]
  · rw [if_neg hnL]
    by_cases hnk : n = k
    · subst hnk
      rw [if_pos rfl, midDesc_append_mover_self hek hmt hlab hkP hLk hOk]
      trivial
    · rw [if_neg hnk, midDesc_append_mover_other hek hlab hkP hnk hnL]
      exact hinvO n hnL hnk

/-- One moved entry extends the run invariant when the destination path is a
symlink to a directory: the moved entry leaves the modelled tree through the
link, and only the top-level erase is visible. -/
theorem step_inv_link (tz : Int) (d s : WorkDir) {P : List String} {k L : String}
    {ndk : Node} {t : Int} {filesL : List (String × Entry)}
    (hek : lookupName d.entries k = some (.node ndk))
    (hmt : nodeMtime ndk = some t)
    (hlab : labelOfNode tz ndk = some L)
    (hkP : k ∉ P) (hkL : k ≠ L)
    (hOk : labelsOk tz d P)
    (hnodup : (keysOf s.entries).Nodup)
    (hsL : lookupName s.entries L = some (.dir filesL))
    (hoc : lookupName filesL k = some (.node .symlinkDir))
    (hinvO : ∀ n, n ≠ L → n ≠ k → optMatches (lookupName s.entries n) (midDesc tz d P n))
    (horig : (∃ files, lookupName d.entries L = some (.dir files))
      ∨ lookupName d.entries L = none
      ∨ (∃ ndL t', lookupName d.entries L = some (.node ndL)
          ∧ nodeMtime ndL = some t' ∧ L ∈ P))
    (hcontentL : ∀ j, lookupName filesL j = dirDesc tz d P L j) :
    ∀ n, optMatches (lookupName (eraseName s.entries k) n) (midDesc tz d (P ++ [k]) n) := by
  have hLk : L ≠ k := fun hc => hkL hc.symm
  have hocc : origContent d L k = some (.node .symlinkDir) :=
    (origContent_eq_runtime hkP hcontentL).trans hoc
  have hmv : movedVal d L k ndk = some (.node .symlinkDir) := by
    unfold movedVal
    rw [hocc]
  intro n
  rw [lookup_eraseTop hnodup n]
  by_cases hnk : n = k
  · subst hnk
    rw [if_pos rfl, midDesc_append_mover_self hek hmt hlab hkP hLk hOk]
    trivial
  · rw [if_neg hnk]
    by_cases hnL : n = L
    · subst hnL
      rw [hsL, midDesc_append_mover_label hek hlab horig]
      refine optMatches_dir ?_
      intro j
      rw [dirDesc_append_mover hek hlab j]
      by_cases hjk : j = k
      · subst hjk
        rw [if_pos rfl, hoc, hmv]
      · rw [if_neg hjk, hcontentL j]
    · rw [midDesc_append_mover_other hek hlab hkP hnk hnL]
      exact hinvO n hnL hnk

/-! ## The run invariant: the loop realizes the order-free description -/


set_option maxHeartbeats 1000000 in
theorem organizeLoop_main (tz : Int) (d : WorkDir)
    (hkeys : (keysOf d.entries).Nodup) :
    ∀ (rest : List String), ∀ (P : List String) (s : WorkDir) (out : List String),
      keysOf d.entries = P ++ rest →
      s.wf →
      (∀ n, optMatches (lookupName s.entries n) (midDesc tz d P n)) →
      labelsOk tz d P →
      ((organizeLoop tz s rest out).err = none →
          (organizeLoop tz s rest out).fs.wf
          ∧ labelsOk tz d (keysOf d.entries)
          ∧ (∀ n, optMatches (lookupName (organizeLoop tz s rest out).fs.entries n)
              (midDesc tz d (keysOf d.entries) n))
          ∧ (organizeLoop tz s rest out).output = out ++ rest.filterMap (viewLine tz d))
      ∧ (∀ e, (organizeLoop tz s rest out).err = some e →
          ∃ done2 fname rest2, rest = done2 ++ fname :: rest2
            ∧ (organizeLoop tz s rest out).fs.wf
            ∧ labelsOk tz d (P ++ done2)
            ∧ (∀ n, optMatches (lookupName (organizeLoop tz s rest out).fs.entries n)
                (midDesc tz d (P ++ done2) n))
            ∧ (organizeLoop tz s rest out).output = out ++ done2.filterMap (viewLine tz d)
            ∧ processFile tz (organizeLoop tz s rest out).fs fname
                = ((organizeLoop tz s rest out).fs, none, some e)) := by
  intro rest
  induction rest with
  | nil =>
    intro P s out hsplit hswf hinv hOk
    have hP : keysOf d.entries = P := by simpa using hsplit
    constructor
    · intro _
      refine ⟨hswf, ?_, ?_, by simp [organizeLoop]⟩
      · rw [hP]; exact hOk
      · intro n; rw [hP]; exact hinv n
    · intro e he
      simp [organizeLoop] at he
  | cons k rest' IH =>
    intro P s out hsplit hswf hinv hOk
    have hnod : (P ++ k :: rest').Nodup := by rw [← hsplit]; exact hkeys
    have hkP : k ∉ P := by
      intro hc
      exact (List.disjoint_of_nodup_append hnod) hc (List.mem_cons_self k rest')
    have hkmem : k ∈ keysOf d.entries := by
      rw [hsplit]; exact List.mem_append_right _ (List.mem_cons_self _ _)
    have hsplit' : keysOf d.entries = (P ++ [k]) ++ rest' := by
      rw [hsplit, List.append_assoc]; rfl
    cases hek : lookupName d.entries k with
    | none =>
      exact absurd hkmem ((lookupName_eq_none_iff _ _).mp hek)
    | some ek =>
      cases ek with
      | dir files =>
        have hknd : ∀ nd2, lookupName d.entries k = some (.node nd2) → nodeMtime nd2 = none := by
          intro nd2 h
          rw [hek] at h
          exact Entry.noConfusion (Option.some.inj h)
        have hk' := hinv k
        rw [midDesc_of_dir hek] at hk'
        obtain ⟨filesK, hsk, -⟩ := optMatches_some_dirL hk'
        have hview : viewLine tz d k = none := by simp [viewLine, hek]
        have hstep : organizeLoop tz s (k :: rest') out = organizeLoop tz s rest' out := by
          simp only [organizeLoop, processFile_skip (os_path_isfile_of_dir hsk)]
        rw [hstep]
        have hinv' : ∀ n, optMatches (lookupName s.entries n) (midDesc tz d (P ++ [k]) n) := by
          intro n
          rw [midDesc_append_skip hknd]
          exact hinv n
        obtain ⟨IH1, IH2⟩ := IH (P ++ [k]) s out hsplit' hswf hinv' (labelsOk_append_skip hknd hOk)
        constructor
        · intro he
          obtain ⟨a, b, c, hd2⟩ := IH1 he
          exact ⟨a, b, c, by rw [hd2]; simp [hview, List.filterMap_cons]⟩
        · intro e he
          obtain ⟨done2, fname, rest2, hsp, hw, hlo, hmd, hout, hpf⟩ := IH2 e he
          refine ⟨k :: done2, fname, rest2, by rw [hsp]; rfl, hw, ?_, ?_, ?_, hpf⟩
          · have heq : P ++ k :: done2 = (P ++ [k]) ++ done2 := by rw [List.append_assoc]; rfl
            rw [heq]; exact hlo
          · intro n
            have heq : P ++ k :: done2 = (P ++ [k]) ++ done2 := by rw [List.append_assoc]; rfl
            rw [heq]; exact hmd n
          · rw [hout]; simp [hview, List.filterMap_cons]
      | node nd =>
        cases hmt : nodeMtime nd with
        | none =>
          have hknd : ∀ nd2, lookupName d.entries k = some (.node nd2) → nodeMtime nd2 = none := by
            intro nd2 h
            rw [hek] at h
            have h2 : nd = nd2 := Entry.node.inj (Option.some.inj h)
            rw [← h2]; exact hmt
          have hk' := hinv k
          rw [midDesc_of_node_nofile hek hmt] at hk'
          have hsk := optMatches_some_node hk'
          have hisf : os_path_isfile s k = false := by
            rw [os_path_isfile_of_node hsk, hmt]
            rfl
          have hview : viewLine tz d k = none := by simp [viewLine, hek, hmt]
          have hstep : organizeLoop tz s (k :: rest') out = organizeLoop tz s rest' out := by
            simp only [organizeLoop, processFile_skip hisf]
          rw [hstep]
          have hinv' : ∀ n, optMatches (lookupName s.entries n) (midDesc tz d (P ++ [k]) n) := by
            intro n
            rw [midDesc_append_skip hknd]
            exact hinv n
          obtain ⟨IH1, IH2⟩ := IH (P ++ [k]) s out hsplit' hswf hinv' (labelsOk_append_skip hknd hOk)
          constructor
          · intro he
            obtain ⟨a, b, c, hd2⟩ := IH1 he
            exact ⟨a, b, c, by rw [hd2]; simp [hview, List.filterMap_cons]⟩
          · intro e he
            obtain ⟨done2, fname, rest2, hsp, hw, hlo, hmd, hout, hpf⟩ := IH2 e he
            refine ⟨k :: done2, fname, rest2, by rw [hsp]; rfl, hw, ?_, ?_, ?_, hpf⟩
            · have heq : P ++ k :: done2 = (P ++ [k]) ++ done2 := by rw [List.append_assoc]; rfl
              rw [heq]; exact hlo
            · intro n
              have heq : P ++ k :: done2 = (P ++ [k]) ++ done2 := by rw [List.append_assoc]; rfl
              rw [heq]; exact hmd n
            · rw [hout]; simp [hview, List.filterMap_cons]
        | some t =>
          have hlab : labelOfNode tz nd = some (monthLabel tz t) := by
            simp [labelOfNode, hmt]
          have hk' := hinv k
          rw [midDesc_of_node_file_notin hek hmt hkP] at hk'
          have hsk : lookupName s.entries k = some (.node nd) := optMatches_some_node hk'
          have hview : viewLine tz d k = some (moveLine k (monthLabel tz t)) := by
            simp [viewLine, hek, hmt]
          have hinvL := hinv (monthLabel tz t)
          cases hsL : lookupName s.entries (monthLabel tz t) with
          | some eL =>
            cases eL with
            | node ndL =>
              have hpf : ∃ e0, processFile tz s k = (s, none, some e0) := by
                by_cases hbr : ndL = Node.symlinkBroken
                · subst hbr
                  exact ⟨_, processFile_err_broken hsk hmt rfl hsL⟩
                · exact ⟨_, processFile_err_occupied hsk hmt rfl hsL hbr⟩
              obtain ⟨e0, hpf⟩ := hpf
              have hloop : organizeLoop tz s (k :: rest') out = ⟨s, out, some e0⟩ := by
                simp only [organizeLoop, hpf]
              rw [hloop]
              constructor
              · intro he
                exact absurd he (by simp)
              · intro e he
                have he2 : e0 = e := by simpa using he
                subst he2
                refine ⟨[], k, rest', rfl, hswf, ?_, ?_, by simp, hpf⟩
                · rw [List.append_nil]; exact hOk
                · intro n; rw [List.append_nil]; exact hinv n
            | dir filesL =>
              rw [hsL] at hinvL
              cases hmd : midDesc tz d P (monthLabel tz t) with
              | none =>
                rw [hmd] at hinvL
                exact hinvL.elim
              | some sh =>
                cases sh with
                | node ndX =>
                  rw [hmd] at hinvL
                  exact hinvL.elim
                | dirL g =>
                  rw [hmd] at hinvL
                  obtain ⟨hg, horig⟩ := midDesc_dirL_inv hmd
                  subst hg
                  have hcontentL : ∀ j, lookupName filesL j = dirDesc tz d P (monthLabel tz t) j :=
                    hinvL
                  have hkL : k ≠ monthLabel tz t := by
                    intro hc
                    rw [hc, hsL] at hsk
                    exact Entry.noConfusion (Option.some.inj hsk)
                  have hLk : monthLabel tz t ≠ k := fun hc => hkL hc.symm
                  have hfn : (keysOf filesL).Nodup := hswf.2 _ (mem_of_lookupName hsL)
                  have hocc : origContent d (monthLabel tz t) k = lookupName filesL k :=
                    origContent_eq_runtime hkP hcontentL
                  have hinvO : ∀ n, n ≠ monthLabel tz t → n ≠ k →
                      optMatches (lookupName s.entries n) (midDesc tz d P n) :=
                    fun n _ _ => hinv n
                  have hcont : ∀ (s2 : WorkDir),
                      processFile tz s k = (s2, some (moveLine k (monthLabel tz t)), none) →
                      s2.wf →
                      (∀ n, optMatches (lookupName s2.entries n) (midDesc tz d (P ++ [k]) n)) →
                      ((organizeLoop tz s (k :: rest') out).err = none →
                          (organizeLoop tz s (k :: rest') out).fs.wf
                          ∧ labelsOk tz d (keysOf d.entries)
                          ∧ (∀ n, optMatches
                              (lookupName (organizeLoop tz s (k :: rest') out).fs.entries n)
                              (midDesc tz d (keysOf d.entries) n))
                          ∧ (organizeLoop tz s (k :: rest') out).output
                              = out ++ (k :: rest').filterMap (viewLine tz d))
                      ∧ (∀ e, (organizeLoop tz s (k :: rest') out).err = some e →
                          ∃ done2 fname rest2, k :: rest' = done2 ++ fname :: rest2
                            ∧ (organizeLoop tz s (k :: rest') out).fs.wf
                            ∧ labelsOk tz d (P ++ done2)
                            ∧ (∀ n, optMatches
                                (lookupName (organizeLoop tz s (k :: rest') out).fs.entries n)
                                (midDesc tz d (P ++ done2) n))
                            ∧ (organizeLoop tz s (k :: rest') out).output
                                = out ++ done2.filterMap (viewLine tz d)
                            ∧ processFile tz (organizeLoop tz s (k :: rest') out).fs fname
                                = ((organizeLoop tz s (k :: rest') out).fs, none, some e)) := by
                    intro s2 hpf hs2wf hinv2
                    have hloop : organizeLoop tz s (k :: rest') out
                        = organizeLoop tz s2 rest' (out ++ [moveLine k (monthLabel tz t)]) := by
                      simp only [organizeLoop, hpf]
                    rw [hloop]
                    obtain ⟨IH1, IH2⟩ := IH (P ++ [k]) s2 (out ++ [moveLine k (monthLabel tz t)])
                      hsplit' hs2wf hinv2 (labelsOk_append_mover hek hlab hkP hOk horig)
                    constructor
                    · intro he
                      obtain ⟨a, b, c, hd2⟩ := IH1 he
                      refine ⟨a, b, c, ?_⟩
                      rw [hd2]
                      simp [hview, List.filterMap_cons]
                    · intro e he
                      obtain ⟨done2, fname, rest2, hsp, hw, hlo, hmd2, hout, hpf2⟩ := IH2 e he
                      refine ⟨k :: done2, fname, rest2, by rw [hsp]; rfl, hw, ?_, ?_, ?_, hpf2⟩
                      · have heq : P ++ k :: done2 = (P ++ [k]) ++ done2 := by
                          rw [List.append_assoc]; rfl
                        rw [heq]; exact hlo
                      · intro n
                        have heq : P ++ k :: done2 = (P ++ [k]) ++ done2 := by
                          rw [List.append_assoc]; rfl
                        rw [heq]; exact hmd2 n
                      · rw [hout]; simp [hview, List.filterMap_cons]
                  cases hoc : lookupName filesL k with
                  | none =>
                    have hmv : movedVal d (monthLabel tz t) k nd = some (.node nd) := by
                      unfold movedVal
                      rw [hocc, hoc]
                    have hself : lookupName (setName filesL k (Entry.node nd)) k
                        = movedVal d (monthLabel tz t) k nd := by
                      rw [lookupName_setName_self, hmv]
                    have hother : ∀ j, j ≠ k →
                        lookupName (setName filesL k (Entry.node nd)) j
                          = lookupName filesL j :=
                      fun j hjk => lookupName_setName_ne (Entry.node nd) hjk
                    have hs2wf : (⟨updateName (eraseName s.entries k) (monthLabel tz t)
                        (.dir (setName filesL k (Entry.node nd)))⟩ : WorkDir).wf :=
                      wf_updateTop hswf (nodupKeys_setName (Entry.node nd) hfn)
                    exact hcont _ (processFile_move_vacant hsk hmt rfl hsL hoc) hs2wf
                      (step_inv_update tz d s hek hmt hlab hkP hkL hOk hswf.1 hsL hinvO horig
                        hself hother hcontentL)
                  | some occ =>
                    cases occ with
                    | node ndO =>
                      by_cases hbr : ndO = Node.symlinkDir
                      · subst hbr
                        have hs2wf : (⟨eraseName s.entries k⟩ : WorkDir).wf :=
                          wf_eraseTop k hswf
                        exact hcont _ (processFile_move_link hsk hmt rfl hsL hoc) hs2wf
                          (step_inv_link tz d s hek hmt hlab hkP hkL hOk hswf.1 hsL hoc hinvO
                            horig hcontentL)
                      · have hmv : movedVal d (monthLabel tz t) k nd = some (.node nd) := by
                          apply movedVal_of_not_dirLike
                          rw [hocc, hoc]
                          cases ndO with
                          | symlinkDir => exact absurd rfl hbr
                          | file f => exact id
                          | symlinkFile f => exact id
                          | symlinkBroken => exact id
                          | special => exact id
                        have hself : lookupName (setName filesL k (Entry.node nd)) k
                            = movedVal d (monthLabel tz t) k nd := by
                          rw [lookupName_setName_self, hmv]
                        have hother : ∀ j, j ≠ k →
                            lookupName (setName filesL k (Entry.node nd)) j
                              = lookupName filesL j :=
                          fun j hjk => lookupName_setName_ne (Entry.node nd) hjk
                        have hs2wf : (⟨updateName (eraseName s.entries k) (monthLabel tz t)
                            (.dir (setName filesL k (Entry.node nd)))⟩ : WorkDir).wf :=
                          wf_updateTop hswf (nodupKeys_setName (Entry.node nd) hfn)
                        exact hcont _ (processFile_move_replace hsk hmt rfl hsL hoc hbr) hs2wf
                          (step_inv_update tz d s hek hmt hlab hkP hkL hOk hswf.1 hsL hinvO horig
                            hself hother hcontentL)
                    | dir inner =>
                      have hmv : movedVal d (monthLabel tz t) k nd
                          = some (.dir (setName inner k (Entry.node nd))) := by
                        unfold movedVal
                        rw [hocc, hoc]
                      have hself : lookupName (updateName filesL k
                            (Entry.dir (setName inner k (Entry.node nd)))) k
                          = movedVal d (monthLabel tz t) k nd := by
                        rw [lookupName_updateName_self
                          (Entry.dir (setName inner k (Entry.node nd)))
                          (mem_keys_of_lookupName hoc), hmv]
                      have hother : ∀ j, j ≠ k →
                          lookupName (updateName filesL k
                            (Entry.dir (setName inner k (Entry.node nd)))) j
                            = lookupName filesL j :=
                        fun j hjk =>
                          lookupName_updateName_ne
                            (Entry.dir (setName inner k (Entry.node nd))) hjk
                      have hs2wf : (⟨updateName (eraseName s.entries k) (monthLabel tz t)
                          (.dir (updateName filesL k
                            (Entry.dir (setName inner k (Entry.node nd)))))⟩ : WorkDir).wf :=
                        wf_updateTop hswf (by rw [keysOf_updateName]; exact hfn)
                      cases hcol : lookupName inner k with
                      | none =>
                        exact hcont _ (processFile_move_inside_fresh hsk hmt rfl hsL hoc hcol)
                          hs2wf
                          (step_inv_update tz d s hek hmt hlab hkP hkL hOk hswf.1 hsL hinvO
                            horig hself hother hcontentL)
                      | some colE =>
                        by_cases hbr2 : colE = Entry.node Node.symlinkBroken
                        · subst hbr2
                          exact hcont _
                            (processFile_move_inside_broken hsk hmt rfl hsL hoc hcol) hs2wf
                            (step_inv_update tz d s hek hmt hlab hkP hkL hOk hswf.1 hsL hinvO
                              horig hself hother hcontentL)
                        · have hpf := processFile_err_exists hsk hmt rfl hsL hoc hcol hbr2
                          have hloop : organizeLoop tz s (k :: rest') out
                              = ⟨s, out, some (.destinationExists k)⟩ := by
                            simp only [organizeLoop, hpf]
                          rw [hloop]
                          constructor
                          · intro he
                            exact absurd he (by simp)
                          · intro e he
                            have he2 : FsError.destinationExists k = e := by simpa using he
                            subst he2
                            refine ⟨[], k, rest', rfl, hswf, ?_, ?_, by simp, hpf⟩
                            · rw [List.append_nil]; exact hOk
                            · intro n; rw [List.append_nil]; exact hinv n
          | none =>
            rw [hsL] at hinvL
            have hmd0 := optMatches_none_inv hinvL
            obtain ⟨hnoany, hinv2L⟩ := midDesc_none_inv hmd0
            have horig : (∃ files, lookupName d.entries (monthLabel tz t) = some (.dir files))
                ∨ lookupName d.entries (monthLabel tz t) = none
                ∨ (∃ ndL t', lookupName d.entries (monthLabel tz t) = some (.node ndL)
                    ∧ nodeMtime ndL = some t' ∧ monthLabel tz t ∈ P) := by
              rcases hinv2L with h1 | h1
              · exact Or.inr (Or.inl h1)
              · exact Or.inr (Or.inr h1)
            have hkL : k ≠ monthLabel tz t := by
              intro hc
              rw [hc, hsL] at hsk
              exact Option.noConfusion hsk
            have hLk : monthLabel tz t ≠ k := fun hc => hkL hc.symm
            have hcont : ∀ (s2 : WorkDir),
                processFile tz s k = (s2, some (moveLine k (monthLabel tz t)), none) →
                s2.wf →
                (∀ n, optMatches (lookupName s2.entries n) (midDesc tz d (P ++ [k]) n)) →
                ((organizeLoop tz s (k :: rest') out).err = none →
                    (organizeLoop tz s (k :: rest') out).fs.wf
                    ∧ labelsOk tz d (keysOf d.entries)
                    ∧ (∀ n, optMatches
                        (lookupName (organizeLoop tz s (k :: rest') out).fs.entries n)
                        (midDesc tz d (keysOf d.entries) n))
                    ∧ (organizeLoop tz s (k :: rest') out).output
                        = out ++ (k :: rest').filterMap (viewLine tz d))
                ∧ (∀ e, (organizeLoop tz s (k :: rest') out).err = some e →
                    ∃ done2 fname rest2, k :: rest' = done2 ++ fname :: rest2
                      ∧ (organizeLoop tz s (k :: rest') out).fs.wf
                      ∧ labelsOk tz d (P ++ done2)
                      ∧ (∀ n, optMatches
                          (lookupName (organizeLoop tz s (k :: rest') out).fs.entries n)
                          (midDesc tz d (P ++ done2) n))
                      ∧ (organizeLoop tz s (k :: rest') out).output
                          = out ++ done2.filterMap (viewLine tz d)
                      ∧ processFile tz (organizeLoop tz s (k :: rest') out).fs fname
                          = ((organizeLoop tz s (k :: rest') out).fs, none, some e)) := by
              intro s2 hpf hs2wf hinv2
              have hloop : organizeLoop tz s (k :: rest') out
                  = organizeLoop tz s2 rest' (out ++ [moveLine k (monthLabel tz t)]) := by
                simp only [organizeLoop, hpf]
              rw [hloop]
              obtain ⟨IH1, IH2⟩ := IH (P ++ [k]) s2 (out ++ [moveLine k (monthLabel tz t)])
                hsplit' hs2wf hinv2 (labelsOk_append_mover hek hlab hkP hOk horig)
              constructor
              · intro he
                obtain ⟨a, b, c, hd2⟩ := IH1 he
                refine ⟨a, b, c, ?_⟩
                rw [hd2]
                simp [hview, List.filterMap_cons]
              · intro e he
                obtain ⟨done2, fname, rest2, hsp, hw, hlo, hmd2, hout, hpf2⟩ := IH2 e he
                refine ⟨k :: done2, fname, rest2, by rw [hsp]; rfl, hw, ?_, ?_, ?_, hpf2⟩
                · have heq : P ++ k :: done2 = (P ++ [k]) ++ done2 := by
                    rw [List.append_assoc]; rfl
                  rw [heq]; exact hlo
                · intro n
                  have heq : P ++ k :: done2 = (P ++ [k]) ++ done2 := by
                    rw [List.append_assoc]; rfl
                  rw [heq]; exact hmd2 n
                · rw [hout]; simp [hview, List.filterMap_cons]
            have hpf := processFile_move_create hsk hmt rfl hsL
            have hs1wf : (⟨s.entries ++ [(monthLabel tz t, Entry.dir [])]⟩ : WorkDir).wf :=
              wf_makedirsResult hswf hsL
            have hlk1 := lookup_makedirsResult hsL
            have hsL1 : lookupName (s.entries ++ [(monthLabel tz t, Entry.dir [])])
                (monthLabel tz t) = some (.dir []) := by
              rw [hlk1 (monthLabel tz t), if_pos rfl]
            have hocn : ∀ j, origContent d (monthLabel tz t) j = none := by
              intro j
              unfold origContent
              rcases hinv2L with h3 | ⟨ndL, t', h3, h4, h5⟩
              · rw [h3]
              · rw [h3]
            have hmv : movedVal d (monthLabel tz t) k nd = some (.node nd) := by
              unfold movedVal
              rw [hocn k]
            have hself : lookupName [(k, Entry.node nd)] k
                = movedVal d (monthLabel tz t) k nd := by
              rw [hmv]
              simp [lookupName]
            have hother : ∀ j, j ≠ k → lookupName [(k, Entry.node nd)] j
                = lookupName ([] : List (String × Entry)) j := by
              intro j hjk
              simp only [lookupName]
              rw [if_neg (fun hc : k = j => hjk hc.symm)]
            have hcontentL : ∀ j, lookupName ([] : List (String × Entry)) j
                = dirDesc tz d P (monthLabel tz t) j := by
              intro j
              unfold dirDesc
              rw [moverTo_eq_none_of_not_any hnoany j, hocn j]
              rfl
            have hinvO1 : ∀ n, n ≠ monthLabel tz t → n ≠ k →
                optMatches (lookupName (s.entries ++ [(monthLabel tz t, Entry.dir [])]) n)
                  (midDesc tz d P n) := by
              intro n hnL hnk
              rw [hlk1 n, if_neg hnL]
              exact hinv n
            have hs2wf : (⟨updateName
                (eraseName (s.entries ++ [(monthLabel tz t, Entry.dir [])]) k)
                (monthLabel tz t) (.dir [(k, Entry.node nd)])⟩ : WorkDir).wf :=
              wf_updateTop hs1wf (by simp)
            exact hcont _ hpf hs2wf
              (step_inv_update tz d ⟨s.entries ++ [(monthLabel tz t, Entry.dir [])]⟩
                hek hmt hlab hkP hkL hOk hs1wf.1 hsL1 hinvO1 horig hself hother hcontentL)

/-! ## Top-level characterization of a run -/

theorem optMatches_right_none {oe : Option Entry} (h : optMatches oe none) : oe = none := by
  cases oe with
  | none => rfl
  | some e => exact h.elim

theorem organize_master (tz : Int) (d : WorkDir) (hwf : d.wf)
    (hok : (organize_files_by_date tz d).err = none) :
    (organize_files_by_date tz d).fs.wf
    ∧ labelsOk tz d (keysOf d.entries)
    ∧ (∀ n, optMatches (lookupName (organize_files_by_date tz d).fs.entries n)
        (midDesc tz d (keysOf d.entries) n))
    ∧ (organize_files_by_date tz d).output = expectedOutput tz d := by
  obtain ⟨H1, -⟩ := organizeLoop_main tz d hwf.1 (os_listdir d) [] d []
    (by simp [os_listdir]) hwf (fun n => midDesc_nil_matches n) labelsOk_nil
  obtain ⟨a, b, c, hd2⟩ := H1 hok
  refine ⟨a, b, c, ?_⟩
  show (organizeLoop tz d (os_listdir d) []).output = expectedOutput tz d
  rw [hd2]
  simp [expectedOutput, os_listdir]

theorem organize_master_fail (tz : Int) (d : WorkDir) (hwf : d.wf) (e : FsError)
    (he : (organize_files_by_date tz d).err = some e) :
    ∃ done fname rest2, keysOf d.entries = done ++ fname :: rest2
      ∧ (organize_files_by_date tz d).fs.wf
      ∧ labelsOk tz d done
      ∧ (∀ n, optMatches (lookupName (organize_files_by_date tz d).fs.entries n)
          (midDesc tz d done n))
      ∧ (organize_files_by_date tz d).output = done.filterMap (viewLine tz d)
      ∧ processFile tz (organize_files_by_date tz d).fs fname
          = ((organize_files_by_date tz d).fs, none, some e) := by
  obtain ⟨-, H2⟩ := organizeLoop_main tz d hwf.1 (os_listdir d) [] d []
    (by simp [os_listdir]) hwf (fun n => midDesc_nil_matches n) labelsOk_nil
  obtain ⟨done, fname, rest2, hsp, hw, hlo, hmdX, hout, hpf⟩ := H2 e he
  refine ⟨done, fname, rest2, hsp, hw, ?_, ?_, ?_, hpf⟩
  · rw [← List.nil_append done]; exact hlo
  · intro n
    have h := hmdX n
    rw [List.nil_append] at h
    exact h
  · show (organizeLoop tz d (os_listdir d) []).output = done.filterMap (viewLine tz d)
    rw [hout, List.nil_append]

/-- Whether the run stops early or not, the reached state matches the
description for some error-free processed prefix. -/
theorem organize_desc_exists (tz : Int) (d : WorkDir) (hwf : d.wf) :
    ∃ P, (organize_files_by_date tz d).fs.wf
      ∧ labelsOk tz d P
      ∧ (∀ n, optMatches (lookupName (organize_files_by_date tz d).fs.entries n)
          (midDesc tz d P n)) := by
  cases he : (organize_files_by_date tz d).err with
  | none =>
    obtain ⟨a, b, c, -⟩ := organize_master tz d hwf he
    exact ⟨keysOf d.entries, a, b, c⟩
  | some e =>
    obtain ⟨done, fname, rest2, -, hw, hlo, hmd, -, -⟩ := organize_master_fail tz d hwf e he
    exact ⟨done, hw, hlo, hmd⟩

/-- C4: a successful run leaves no top-level entry that passes the
regular-file filter, so running the operation again moves nothing, prints
nothing, and returns the state unchanged. -/
theorem C4_idempotent (tz : Int) (d : WorkDir) (hwf : d.wf)
    (hok : (organize_files_by_date tz d).err = none) :
    organize_files_by_date tz (organize_files_by_date tz d).fs
      = ⟨(organize_files_by_date tz d).fs, [], none⟩ := by
  obtain ⟨hw, hOk, hmatch, -⟩ := organize_master tz d hwf hok
  have hnof : ∀ n, os_path_isfile (organize_files_by_date tz d).fs n = false := by
    intro n
    have h := hmatch n
    cases hln : lookupName d.entries n with
    | none =>
      rw [midDesc_of_absent hln] at h
      by_cases hA : anyMoverTo tz d (keysOf d.entries) n
      · rw [if_pos hA] at h
        obtain ⟨files, hs, -⟩ := optMatches_some_dirL h
        exact os_path_isfile_of_dir hs
      · rw [if_neg hA] at h
        exact os_path_isfile_of_none (optMatches_right_none h)
    | some e =>
      cases e with
      | dir files =>
        rw [midDesc_of_dir hln] at h
        obtain ⟨files2, hs, -⟩ := optMatches_some_dirL h
        exact os_path_isfile_of_dir hs
      | node nd =>
        cases hmt : nodeMtime nd with
        | none =>
          rw [midDesc_of_node_nofile hln hmt] at h
          rw [os_path_isfile_of_node (optMatches_some_node h), hmt]
          rfl
        | some t =>
          have hmem : n ∈ keysOf d.entries := mem_keys_of_lookupName hln
          rw [midDesc_of_node_file_in hln hmt hmem] at h
          by_cases hA : anyMoverTo tz d (keysOf d.entries) n
          · rw [if_pos hA] at h
            obtain ⟨files2, hs, -⟩ := optMatches_some_dirL h
            exact os_path_isfile_of_dir hs
          · rw [if_neg hA] at h
            exact os_path_isfile_of_none (optMatches_right_none h)
  have hall : ∀ (names out : List String),
      organizeLoop tz (organize_files_by_date tz d).fs names out
        = ⟨(organize_files_by_date tz d).fs, out, none⟩ := by
    intro names
    induction names with
    | nil => intro out; rfl
    | cons m rest ih =>
      intro out
      simp only [organizeLoop, processFile_skip (hnof m)]
      exact ih out
  exact hall (os_listdir (organize_files_by_date tz d).fs) []

/-- C6: whether or not the run aborts, non-file entries are untouched,
pre-existing directories remain directories under their own names with their
original contents only extended or overridden by relocated top-level
entries (an entry relocated onto a directory occupant lands one level deeper
inside it), every node still present at the top level is unchanged from the
initial state, and any new top-level name is a `YYYY.MM` month directory of
some scanned file whose contents all come from initial top-level entries:
file contents are never modified, only relocated. -/
theorem C6_frame (tz : Int) (d : WorkDir) (hwf : d.wf) :
    (∀ m nd, lookupName d.entries m = some (.node nd) → nodeMtime nd = none →
        lookupName (organize_files_by_date tz d).fs.entries m = some (.node nd))
    ∧ (∀ m files, lookupName d.entries m = some (.dir files) →
        ∃ files2, lookupName (organize_files_by_date tz d).fs.entries m = some (.dir files2)
          ∧ ∀ k e2, lookupName files2 k = some e2 →
              lookupName files k = some e2
              ∨ (∃ nd2, lookupName d.entries k = some (.node nd2)
                  ∧ (e2 = .node nd2
                    ∨ ∃ inner, lookupName files k = some (.dir inner)
                        ∧ e2 = .dir (setName inner k (.node nd2)))))
    ∧ (∀ m nd2, lookupName (organize_files_by_date tz d).fs.entries m = some (.node nd2) →
        lookupName d.entries m = some (.node nd2))
    ∧ (∀ m e2, lookupName d.entries m = none →
        lookupName (organize_files_by_date tz d).fs.entries m = some e2 →
        ∃ files2, e2 = .dir files2
          ∧ (∃ k nd t, lookupName d.entries k = some (.node nd) ∧ nodeMtime nd = some t
              ∧ m = monthLabel tz t)
          ∧ ∀ k e3, lookupName files2 k = some e3 →
              ∃ nd2, e3 = .node nd2 ∧ lookupName d.entries k = some (.node nd2)) := by
  obtain ⟨P, hw, hOk, hmatch⟩ := organize_desc_exists tz d hwf
  refine ⟨?_, ?_, ?_, ?_⟩
  · intro m nd hlm hmt
    have h := hmatch m
    rw [midDesc_of_node_nofile hlm hmt] at h
    exact optMatches_some_node h
  · intro m files hlm
    have h := hmatch m
    rw [midDesc_of_dir hlm] at h
    obtain ⟨files2, hs, hcont⟩ := optMatches_some_dirL h
    refine ⟨files2, hs, ?_⟩
    intro k e2 hk2
    have hck := hcont k
    rw [hk2] at hck
    cases hmv : moverTo tz d P m k with
    | some nd3 =>
      have hoc : origContent d m k = lookupName files k := by
        unfold origContent
        rw [hlm]
      have hdd : dirDesc tz d P m k = movedVal d m k nd3 := by
        unfold dirDesc
        rw [hmv]
      rw [hdd] at hck
      unfold movedVal at hck
      rw [hoc] at hck
      cases hf : lookupName files k with
      | none =>
        rw [hf] at hck
        exact Or.inr ⟨nd3, (moverTo_inv hmv).1, Or.inl (Option.some.inj hck)⟩
      | some eo =>
        rw [hf] at hck
        cases eo with
        | dir inner =>
          exact Or.inr ⟨nd3, (moverTo_inv hmv).1,
            Or.inr ⟨inner, rfl, Option.some.inj hck⟩⟩
        | node ndo =>
          cases ndo with
          | symlinkDir => exact Or.inl hck.symm
          | file fo =>
            exact Or.inr ⟨nd3, (moverTo_inv hmv).1, Or.inl (Option.some.inj hck)⟩
          | symlinkFile fo =>
            exact Or.inr ⟨nd3, (moverTo_inv hmv).1, Or.inl (Option.some.inj hck)⟩
          | symlinkBroken =>
            exact Or.inr ⟨nd3, (moverTo_inv hmv).1, Or.inl (Option.some.inj hck)⟩
          | special =>
            exact Or.inr ⟨nd3, (moverTo_inv hmv).1, Or.inl (Option.some.inj hck)⟩
    | none =>
      have hdd : dirDesc tz d P m k = lookupName files k := by
        unfold dirDesc origContent
        rw [hmv, hlm]
      rw [hdd] at hck
      exact Or.inl hck.symm
  · intro m nd2 hfm
    have h := hmatch m
    cases hlm : lookupName d.entries m with
    | none =>
      rw [midDesc_of_absent hlm] at h
      by_cases hA : anyMoverTo tz d P m
      · rw [if_pos hA] at h
        obtain ⟨files2, hs, -⟩ := optMatches_some_dirL h
        rw [hs] at hfm
        exact Entry.noConfusion (Option.some.inj hfm)
      · rw [if_neg hA] at h
        rw [optMatches_right_none h] at hfm
        exact Option.noConfusion hfm
    | some e =>
      cases e with
      | dir files =>
        rw [midDesc_of_dir hlm] at h
        obtain ⟨files2, hs, -⟩ := optMatches_some_dirL h
        rw [hs] at hfm
        exact Entry.noConfusion (Option.some.inj hfm)
      | node nd =>
        cases hmt : nodeMtime nd with
        | none =>
          rw [midDesc_of_node_nofile hlm hmt] at h
          have hfin := optMatches_some_node h
          rw [hfin] at hfm
          exact hfm
        | some t =>
          by_cases hP : m ∈ P
          · rw [midDesc_of_node_file_in hlm hmt hP] at h
            by_cases hA : anyMoverTo tz d P m
            · rw [if_pos hA] at h
              obtain ⟨files2, hs, -⟩ := optMatches_some_dirL h
              rw [hs] at hfm
              exact Entry.noConfusion (Option.some.inj hfm)
            · rw [if_neg hA] at h
              rw [optMatches_right_none h] at hfm
              exact Option.noConfusion hfm
          · rw [midDesc_of_node_file_notin hlm hmt hP] at h
            have hfin := optMatches_some_node h
            rw [hfin] at hfm
            exact hfm
  · intro m e2 hlm hfm
    have h := hmatch m
    rw [midDesc_of_absent hlm] at h
    by_cases hA : anyMoverTo tz d P m
    · rw [if_pos hA] at h
      obtain ⟨files2, hs, hcont⟩ := optMatches_some_dirL h
      rw [hs] at hfm
      refine ⟨files2, (Option.some.inj hfm).symm, ?_, ?_⟩
      · obtain ⟨k, nd, hmv⟩ := anyMoverTo_inv hA
        obtain ⟨h1, h2, h3⟩ := moverTo_inv hmv
        obtain ⟨t, ht, hmm⟩ := Option.map_eq_some'.mp h3
        exact ⟨k, nd, t, h1, ht, hmm.symm⟩
      · intro k e3 hk2
        have hck := hcont k
        rw [hk2] at hck
        have hocn : origContent d m k = none := by
          unfold origContent
          rw [hlm]
        cases hmv : moverTo tz d P m k with
        | some nd3 =>
          have hmvv : movedVal d m k nd3 = some (.node nd3) := by
            unfold movedVal
            rw [hocn]
          have hdd : dirDesc tz d P m k = some (.node nd3) := by
            unfold dirDesc
            rw [hmv]
            exact hmvv
          rw [hdd] at hck
          exact ⟨nd3, Option.some.inj hck, (moverTo_inv hmv).1⟩
        | none =>
          have hdd : dirDesc tz d P m k = none := by
            unfold dirDesc
            rw [hmv]
            exact hocn
          rw [hdd] at hck
          exact Option.noConfusion hck
    · rw [if_neg hA] at h
      rw [optMatches_right_none h] at hfm
      exact Option.noConfusion hfm

/-- C7: a successful run prints exactly one `Moved <name> to <label>/` line
per entry that passed the regular-file filter, in listing order, and nothing
for skipped entries; over a directory with no regular files it prints
nothing. -/
theorem C7_output (tz : Int) (d : WorkDir) (hwf : d.wf)
    (hok : (organize_files_by_date tz d).err = none) :
    (organize_files_by_date tz d).output = expectedOutput tz d
    ∧ ((∀ p ∈ d.entries, ∀ nd, p.2 = Entry.node nd → nodeMtime nd = none) →
        (organize_files_by_date tz d).output = []) := by
  obtain ⟨-, -, -, hout⟩ := organize_master tz d hwf hok
  refine ⟨hout, ?_⟩
  intro hnone
  rw [hout]
  unfold expectedOutput
  rw [List.filterMap_eq_nil_iff]
  intro k hk
  cases hlk : lookupName d.entries k with
  | none => simp [viewLine, hlk]
  | some e =>
    cases e with
    | dir files => simp [viewLine, hlk]
    | node nd =>
      have hm : nodeMtime nd = none := hnone (k, .node nd) (mem_of_lookupName hlk) nd rfl
      simp [viewLine, hlk, hm]

/-- C9: two error-free runs over permuted listings of the same directory
contents produce the same final state: every name resolves to the same
entry, with directories compared by lookup since a directory's internal
listing order is not part of the state. -/
theorem C9_order_independent (tz : Int) (d1 d2 : WorkDir)
    (hwf1 : d1.wf) (hperm : d1.entries.Perm d2.entries)
    (hok1 : (organize_files_by_date tz d1).err = none)
    (hok2 : (organize_files_by_date tz d2).err = none) :
    ∀ n, optEntryEquiv (lookupName (organize_files_by_date tz d1).fs.entries n)
        (lookupName (organize_files_by_date tz d2).fs.entries n) := by
  have hwf2 : d2.wf :=
    ⟨((hperm.map Prod.fst).nodup_iff).mp hwf1.1, fun p hp => hwf1.2 p (hperm.symm.subset hp)⟩
  have hlk : ∀ n, lookupName d1.entries n = lookupName d2.entries n :=
    lookupName_perm hperm hwf1.1
  have hmem : ∀ k, k ∈ keysOf d1.entries ↔ k ∈ keysOf d2.entries :=
    fun k => (hperm.map Prod.fst).mem_iff
  have hmov : ∀ L k, moverTo tz d1 (keysOf d1.entries) L k
      = moverTo tz d2 (keysOf d2.entries) L k := by
    intro L k
    unfold moverTo
    rw [← hlk k]
    cases lookupName d1.entries k with
    | none => rfl
    | some e =>
      cases e with
      | dir files => rfl
      | node nd => exact if_congr (and_congr (hmem k) Iff.rfl) rfl rfl
  have hany : ∀ L, anyMoverTo tz d1 (keysOf d1.entries) L
      ↔ anyMoverTo tz d2 (keysOf d2.entries) L := by
    intro L
    unfold anyMoverTo
    constructor
    · rintro ⟨p, hp, hs⟩
      exact ⟨p, hperm.subset hp, by rw [← hmov L p.1]; exact hs⟩
    · rintro ⟨p, hp, hs⟩
      exact ⟨p, hperm.symm.subset hp, by rw [hmov L p.1]; exact hs⟩
  have hoc : ∀ L k, origContent d1 L k = origContent d2 L k := by
    intro L k
    unfold origContent
    rw [hlk L]
  have hmvv : ∀ L k nd, movedVal d1 L k nd = movedVal d2 L k nd := by
    intro L k nd
    unfold movedVal
    rw [hoc L k]
  have hdd : ∀ L, dirDesc tz d1 (keysOf d1.entries) L = dirDesc tz d2 (keysOf d2.entries) L := by
    intro L
    funext k
    unfold dirDesc
    rw [hmov L k]
    cases moverTo tz d2 (keysOf d2.entries) L k with
    | some nd => exact hmvv L k nd
    | none => exact hoc L k
  have hmd : ∀ n, midDesc tz d1 (keysOf d1.entries) n = midDesc tz d2 (keysOf d2.entries) n := by
    intro n
    cases hln : lookupName d1.entries n with
    | none =>
      have hln2 : lookupName d2.entries n = none := by rw [← hlk n]; exact hln
      rw [midDesc_of_absent hln, midDesc_of_absent hln2, hdd n]
      exact if_congr (hany n) rfl rfl
    | some e =>
      have hln2 : lookupName d2.entries n = some e := by rw [← hlk n]; exact hln
      cases e with
      | dir files => rw [midDesc_of_dir hln, midDesc_of_dir hln2, hdd n]
      | node nd =>
        cases hmt : nodeMtime nd with
        | none => rw [midDesc_of_node_nofile hln hmt, midDesc_of_node_nofile hln2 hmt]
        | some t =>
          by_cases hP : n ∈ keysOf d1.entries
          · rw [midDesc_of_node_file_in hln hmt hP,
              midDesc_of_node_file_in hln2 hmt ((hmem n).mp hP), hdd n]
            exact if_congr (hany n) rfl rfl
          · rw [midDesc_of_node_file_notin hln hmt hP,
              midDesc_of_node_file_notin hln2 hmt (fun hc => hP ((hmem n).mpr hc))]
  intro n
  have h1 := (organize_master tz d1 hwf1 hok1).2.2.1 n
  have h2 := (organize_master tz d2 hwf2 hok2).2.2.1 n
  rw [hmd n] at h1
  cases hsh : midDesc tz d2 (keysOf d2.entries) n with
  | none =>
    rw [hsh] at h1 h2
    rw [optMatches_right_none h1, optMatches_right_none h2]
    trivial
  | some shp =>
    rw [hsh] at h1 h2
    cases shp with
    | node nd =>
      rw [optMatches_some_node h1, optMatches_some_node h2]
      show nd = nd
      rfl
    | dirL g =>
      obtain ⟨f1, e1, c1⟩ := optMatches_some_dirL h1
      obtain ⟨f2, e2, c2⟩ := optMatches_some_dirL h2
      rw [e1, e2]
      show ∀ k, lookupName f1 k = lookupName f2 k
      intro k
      rw [c1 k, c2 k]

/-- C2 (counterexample): with a regular file occupying the target name,
`create_directory_if_not_exists` returns successfully instead of failing —
the guard `os.path.exists` is true, so `os.makedirs` is never attempted. -/
theorem C2_counterexample :
    create_directory_if_not_exists ⟨[("2023.06", .node (.file ⟨0, 0⟩))]⟩ "2023.06"
      = .ok ⟨[("2023.06", .node (.file ⟨0, 0⟩))]⟩ := rfl

/-- C2 (amended): when a non-directory entry occupies the target name, the
operation fails only if that entry is a broken symlink (reported absent by
`os.path.exists`, so `os.makedirs` is attempted and raises
`FileExistsError`); for every other occupant it returns successfully taking
no action, because the guard tests existence rather than directory-ness, and
the failure surfaces only later at the move step. -/
theorem C2_amended (d : WorkDir) (name : String) (nd : Node)
    (h : lookupName d.entries name = some (.node nd)) :
    (nd ≠ .symlinkBroken → create_directory_if_not_exists d name = .ok d)
    ∧ (nd = .symlinkBroken → create_directory_if_not_exists d name
        = .error (.fileExistsErr name)) := by
  constructor
  · intro hnb
    have hex : os_path_exists d name = true := by
      cases nd <;> simp_all [os_path_exists, h]
    simp [create_directory_if_not_exists, hex]
  · intro hb
    subst hb
    have hex : os_path_exists d name = false := by simp [os_path_exists, h]
    simp [create_directory_if_not_exists, hex, os_makedirs, h]

/-- C3: Directory-Ensure is idempotent: whenever it succeeds, calling it
again with the same label succeeds and changes nothing; it preserves
well-formedness (so no duplicate directory is ever created); and if a
directory of that name already exists, it takes no action at all. -/
theorem C3_ensure_idempotent (d : WorkDir) (label : String) (d2 : WorkDir)
    (h : create_directory_if_not_exists d label = .ok d2) :
    create_directory_if_not_exists d2 label = .ok d2
    ∧ (d.wf → d2.wf)
    ∧ (∀ files, lookupName d.entries label = some (.dir files) → d2 = d) := by
  cases hex : os_path_exists d label with
  | true =>
    have hid : create_directory_if_not_exists d label = .ok d := by
      simp [create_directory_if_not_exists, hex]
    rw [hid] at h
    have hd2 : d = d2 := Except.ok.inj h
    subst hd2
    exact ⟨hid, fun hw => hw, fun _ _ => rfl⟩
  | false =>
    have hmk : create_directory_if_not_exists d label = os_makedirs d label := by
      simp [create_directory_if_not_exists, hex]
    rw [hmk] at h
    unfold os_makedirs at h
    cases hl : lookupName d.entries label with
    | some v =>
      rw [hl] at h
      exact Except.noConfusion h
    | none =>
      rw [hl] at h
      have hd2 : ⟨d.entries ++ [(label, Entry.dir [])]⟩ = d2 := Except.ok.inj h
      subst hd2
      have hlook : lookupName (d.entries ++ [(label, Entry.dir [])]) label
          = some (.dir []) := by
        rw [lookupName_append_right hl]
        simp [lookupName]
      refine ⟨?_, ?_, ?_⟩
      · have hex2 : os_path_exists ⟨d.entries ++ [(label, Entry.dir [])]⟩ label = true := by
          simp [os_path_exists, hlook]
        simp [create_directory_if_not_exists, hex2]
      · intro hwf
        exact wf_makedirsResult hwf hl
      · intro files hlf
        exact Option.noConfusion hlf

/-! ## Calendar facts for the month label -/

/-- The day-of-year computed inside `civilFromDays` is bounded: enough to pin
the month into `1..12`. -/
theorem civil_month_range (z : Int) :
    1 ≤ (civilFromDays z).2 ∧ (civilFromDays z).2 ≤ 12 := by
  have h2 : 0 ≤ (z + 719468).emod 146097 := Int.emod_nonneg _ (by norm_num)
  have h1 : (z + 719468).emod 146097 < 146097 := Int.emod_lt_of_pos _ (by norm_num)
  have hdoe : ((z + 719468).emod 146097).toNat ≤ 146096 := by omega
  unfold civilFromDays
  dsimp only
  refine ⟨?_, ?_⟩ <;> split_ifs <;> omega

theorem decDigit_length (n : Nat) : (decDigit n).length = 1 := by
  simp [decDigit]

theorem render4_length (n : Nat) : (render4 n).length = 4 := by
  simp [render4, String.length_append, decDigit_length]

theorem render2_length (n : Nat) : (render2 n).length = 2 := by
  simp [render2, String.length_append, decDigit_length]

/-- C8: the month label is computed from the timestamp shifted by the local
offset (local-time interpretation), its month component is always in
`1..12`, for the four-digit year range it renders as a zero-padded
four-digit year, a literal dot, and a zero-padded two-digit month, and a
June 2023 timestamp yields `2023.06`. -/
theorem C8_month_label (tz t : Int) :
    monthLabel tz t = monthLabel 0 (t + tz)
    ∧ (1 ≤ (civilFromSeconds (t + tz)).2 ∧ (civilFromSeconds (t + tz)).2 ≤ 12)
    ∧ (∀ y m, civilFromSeconds (t + tz) = (y, m) → 1000 ≤ y → y ≤ 9999 →
        monthLabel tz t = render4 y.toNat ++ "." ++ render2 m
        ∧ (render4 y.toNat).length = 4 ∧ (render2 m).length = 2)
    ∧ monthLabel 0 1686800000 = "2023.06" := by
  refine ⟨by simp [monthLabel], civil_month_range _, ?_, by decide⟩
  intro y m hcv h1 h2
  have hlab : monthLabel tz t = renderYear y ++ "." ++ render2 m := by
    unfold monthLabel
    rw [hcv]
  have hy : renderYear y = render4 y.toNat := by
    unfold renderYear
    rw [if_pos ⟨by omega, by omega⟩]
  exact ⟨by rw [hlab, hy], render4_length _, render2_length _⟩

/-! ## Concrete witnesses -/

theorem C2_amended_witness :
    lookupName (⟨[("x", .node (.file ⟨0, 0⟩))]⟩ : WorkDir).entries "x"
      = some (.node (.file ⟨0, 0⟩))
    ∧ ((Node.file ⟨0, 0⟩ ≠ .symlinkBroken →
          create_directory_if_not_exists ⟨[("x", .node (.file ⟨0, 0⟩))]⟩ "x"
            = .ok ⟨[("x", .node (.file ⟨0, 0⟩))]⟩)
      ∧ (Node.file ⟨0, 0⟩ = .symlinkBroken →
          create_directory_if_not_exists ⟨[("x", .node (.file ⟨0, 0⟩))]⟩ "x"
            = .error (.fileExistsErr "x"))) :=
  ⟨rfl, C2_amended ⟨[("x", .node (.file ⟨0, 0⟩))]⟩ "x" (.file ⟨0, 0⟩) rfl⟩

theorem C3_ensure_idempotent_witness :
    create_directory_if_not_exists ⟨[]⟩ "2023.06" = .ok ⟨[("2023.06", .dir [])]⟩
    ∧ (create_directory_if_not_exists ⟨[("2023.06", .dir [])]⟩ "2023.06"
        = .ok ⟨[("2023.06", .dir [])]⟩
      ∧ ((⟨[]⟩ : WorkDir).wf → (⟨[("2023.06", .dir [])]⟩ : WorkDir).wf)
      ∧ (∀ files, lookupName (⟨[]⟩ : WorkDir).entries "2023.06" = some (.dir files)
          → (⟨[("2023.06", .dir [])]⟩ : WorkDir) = ⟨[]⟩)) :=
  ⟨rfl, C3_ensure_idempotent ⟨[]⟩ "2023.06" ⟨[("2023.06", .dir [])]⟩ rfl⟩

theorem C4_idempotent_witness :
    (⟨[("report.txt", .node (.file ⟨1686800000, 0⟩))]⟩ : WorkDir).wf
    ∧ (organize_files_by_date 0 ⟨[("report.txt", .node (.file ⟨1686800000, 0⟩))]⟩).err = none
    ∧ organize_files_by_date 0
        (organize_files_by_date 0 ⟨[("report.txt", .node (.file ⟨1686800000, 0⟩))]⟩).fs
      = ⟨(organize_files_by_date 0 ⟨[("report.txt", .node (.file ⟨1686800000, 0⟩))]⟩).fs,
          [], none⟩ :=
  ⟨by decide, rfl,
    C4_idempotent 0 ⟨[("report.txt", .node (.file ⟨1686800000, 0⟩))]⟩ (by decide) rfl⟩

theorem C6_frame_witness :
    (⟨[("archive", .dir [("old.txt", .node (.file ⟨5, 7⟩))]),
        ("report.txt", .node (.file ⟨1686800000, 0⟩))]⟩ : WorkDir).wf
    ∧ ((∀ m nd, lookupName (⟨[("archive", .dir [("old.txt", .node (.file ⟨5, 7⟩))]),
            ("report.txt", .node (.file ⟨1686800000, 0⟩))]⟩ : WorkDir).entries m
          = some (.node nd) → nodeMtime nd = none →
          lookupName (organize_files_by_date 0
              ⟨[("archive", .dir [("old.txt", .node (.file ⟨5, 7⟩))]),
                ("report.txt", .node (.file ⟨1686800000, 0⟩))]⟩).fs.entries m
            = some (.node nd))
      ∧ (∀ m files, lookupName (⟨[("archive", .dir [("old.txt", .node (.file ⟨5, 7⟩))]),
            ("report.txt", .node (.file ⟨1686800000, 0⟩))]⟩ : WorkDir).entries m
          = some (.dir files) →
          ∃ files2, lookupName (organize_files_by_date 0
              ⟨[("archive", .dir [("old.txt", .node (.file ⟨5, 7⟩))]),
                ("report.txt", .node (.file ⟨1686800000, 0⟩))]⟩).fs.entries m
            = some (.dir files2)
            ∧ ∀ k e2, lookupName files2 k = some e2 →
                lookupName files k = some e2
                ∨ (∃ nd2, lookupName (⟨[("archive", .dir [("old.txt", .node (.file ⟨5, 7⟩))]),
                      ("report.txt", .node (.file ⟨1686800000, 0⟩))]⟩ : WorkDir).entries k
                    = some (.node nd2)
                    ∧ (e2 = .node nd2
                      ∨ ∃ inner, lookupName files k = some (.dir inner)
                          ∧ e2 = .dir (setName inner k (.node nd2)))))
      ∧ (∀ m nd2, lookupName (organize_files_by_date 0
            ⟨[("archive", .dir [("old.txt", .node (.file ⟨5, 7⟩))]),
              ("report.txt", .node (.file ⟨1686800000, 0⟩))]⟩).fs.entries m
          = some (.node nd2) →
          lookupName (⟨[("archive", .dir [("old.txt", .node (.file ⟨5, 7⟩))]),
              ("report.txt", .node (.file ⟨1686800000, 0⟩))]⟩ : WorkDir).entries m
            = some (.node nd2))
      ∧ (∀ m e2, lookupName (⟨[("archive", .dir [("old.txt", .node (.file ⟨5, 7⟩))]),
            ("report.txt", .node (.file ⟨1686800000, 0⟩))]⟩ : WorkDir).entries m = none →
          lookupName (organize_files_by_date 0
              ⟨[("archive", .dir [("old.txt", .node (.file ⟨5, 7⟩))]),
                ("report.txt", .node (.file ⟨1686800000, 0⟩))]⟩).fs.entries m = some e2 →
          ∃ files2, e2 = .dir files2
            ∧ (∃ k nd t, lookupName (⟨[("archive", .dir [("old.txt", .node (.file ⟨5, 7⟩))]),
                  ("report.txt", .node (.file ⟨1686800000, 0⟩))]⟩ : WorkDir).entries k
                = some (.node nd) ∧ nodeMtime nd = some t ∧ m = monthLabel 0 t)
            ∧ ∀ k e3, lookupName files2 k = some e3 →
                ∃ nd2, e3 = .node nd2
                  ∧ lookupName (⟨[("archive", .dir [("old.txt", .node (.file ⟨5, 7⟩))]),
                      ("report.txt", .node (.file ⟨1686800000, 0⟩))]⟩ : WorkDir).entries k
                    = some (.node nd2))) :=
  ⟨by decide,
    C6_frame 0 ⟨[("archive", .dir [("old.txt", .node (.file ⟨5, 7⟩))]),
        ("report.txt", .node (.file ⟨1686800000, 0⟩))]⟩ (by decide)⟩

theorem C7_output_witness :
    (⟨[("report.txt", .node (.file ⟨1686800000, 0⟩))]⟩ : WorkDir).wf
    ∧ (organize_files_by_date 0 ⟨[("report.txt", .node (.file ⟨1686800000, 0⟩))]⟩).err = none
    ∧ ((organize_files_by_date 0 ⟨[("report.txt", .node (.file ⟨1686800000, 0⟩))]⟩).output
        = expectedOutput 0 ⟨[("report.txt", .node (.file ⟨1686800000, 0⟩))]⟩
      ∧ ((∀ p ∈ (⟨[("report.txt", .node (.file ⟨1686800000, 0⟩))]⟩ : WorkDir).entries,
            ∀ nd, p.2 = Entry.node nd → nodeMtime nd = none) →
          (organize_files_by_date 0
            ⟨[("report.txt", .node (.file ⟨1686800000, 0⟩))]⟩).output = [])) :=
  ⟨by decide, rfl,
    C7_output 0 ⟨[("report.txt", .node (.file ⟨1686800000, 0⟩))]⟩ (by decide) rfl⟩

theorem C8_month_label_witness :
    civilFromSeconds (1686800000 + 0) = (2023, 6)
    ∧ (monthLabel 0 1686800000 = render4 (Int.toNat 2023) ++ "." ++ render2 6
      ∧ (render4 (Int.toNat 2023)).length = 4 ∧ (render2 6).length = 2) :=
  ⟨by decide,
    (C8_month_label 0 1686800000).2.2.1 2023 6 (by decide) (by decide) (by decide)⟩

theorem C9_order_independent_witness :
    (⟨[("a", .node (.file ⟨1686800000, 0⟩)), ("b", .node (.file ⟨100, 1⟩))]⟩ : WorkDir).wf
    ∧ (⟨[("a", .node (.file ⟨1686800000, 0⟩)), ("b", .node (.file ⟨100, 1⟩))]⟩
        : WorkDir).entries.Perm
        (⟨[("b", .node (.file ⟨100, 1⟩)), ("a", .node (.file ⟨1686800000, 0⟩))]⟩
          : WorkDir).entries
    ∧ (organize_files_by_date 0
        ⟨[("a", .node (.file ⟨1686800000, 0⟩)), ("b", .node (.file ⟨100, 1⟩))]⟩).err = none
    ∧ (organize_files_by_date 0
        ⟨[("b", .node (.file ⟨100, 1⟩)), ("a", .node (.file ⟨1686800000, 0⟩))]⟩).err = none
    ∧ ∀ n, optEntryEquiv
        (lookupName (organize_files_by_date 0
          ⟨[("a", .node (.file ⟨1686800000, 0⟩)), ("b", .node (.file ⟨100, 1⟩))]⟩).fs.entries n)
        (lookupName (organize_files_by_date 0
          ⟨[("b", .node (.file ⟨100, 1⟩)), ("a", .node (.file ⟨1686800000, 0⟩))]⟩).fs.entries n) :=
  ⟨by decide,
    List.Perm.swap ("b", Entry.node (.file ⟨100, 1⟩)) ("a", Entry.node (.file ⟨1686800000, 0⟩)) [],
    rfl, rfl,
    C9_order_independent 0
      ⟨[("a", .node (.file ⟨1686800000, 0⟩)), ("b", .node (.file ⟨100, 1⟩))]⟩
      ⟨[("b", .node (.file ⟨100, 1⟩)), ("a", .node (.file ⟨1686800000, 0⟩))]⟩
      (by decide)
      (List.Perm.swap ("b", Entry.node (.file ⟨100, 1⟩)) ("a", Entry.node (.file ⟨1686800000, 0⟩)) [])
      rfl rfl⟩

end OrganizeFiles
